import Mathlib

/-!
Verification of the insertion-completion fact index (`src/src/Trie.cc`).

The development shallowly embeds the two index variants of the repository:
the lossless trie (`Trie` / `TrieRoot`) and the lossy packed index
(`LossyTrie`), together with the two-pass builder pipeline
(`completionCounts` / `LossyTrie` constructor / `addFacts`).

Machine integers are modelled as `Nat` (with explicit `% 2 ^ 32` where the
source relies on 32-bit overflow, namely in the FNV hashing), the mutation
index as `Int` (it is an `int16_t` in the source and may be negative).
The caller-owned output buffer of a `contains` query is modelled
operationally: a query returns the boolean containment answer, the list of
completion records the source stores into the buffer (the source always
stores them at consecutive slots starting from 0), and a flag telling
whether the trailing `source = 0` terminator store was executed.

Declarations of the repository that live in headers not present under
`src/` (`Trie.h`, `Config.h`, the `HashIntMap`) are modelled from the spec;
each such definition carries a doc comment starting with
`Modelled from the spec:`.
-/

set_option autoImplicit false
set_option maxRecDepth 100000

namespace FactIndex

/-- Modelled from the spec: `MAX_COMPLETIONS` is a compile-time tunable from
the missing `Config.h`; the spec gives its default value 25. -/
def MAX_COMPLETIONS : Nat := 25

/-- A word identifier (`word`, unsigned 32-bit in the source; 0 is the
reserved sentinel). -/
abbrev Word := Nat

/-- A tagged word (`tagged_word`): only the word id participates in queries. -/
structure TaggedWord where
  word : Word
  sense : Nat
deriving DecidableEq, Repr

/-- An `edge` record: input element of `add` and output slot of completion
enumeration.  `cost` is always the constant `1.0f` in the modelled code, so it
is modelled as a `Nat` constant. -/
structure Edge where
  source : Word
  source_sense : Nat
  sink : Word
  sink_sense : Nat
  type : Nat
  cost : Nat
deriving DecidableEq, Repr

/-- Modelled from the spec: the packed insertion record of the lossy index
(missing `Trie.h` bitfield `packed_insertion`): source word id, sense, type
and the `endOfList` flag. -/
structure PackedRec where
  source : Word
  sense : Nat
  type : Nat
  endOfList : Bool
deriving DecidableEq, Repr

/-- The all-zero packed record: the zero-initialised state of a slot. -/
def zeroRec : PackedRec := ⟨0, 0, 0, false⟩

/-- Association-list lookup, the model of `btree_map::find` and of the hash
map's `get`. -/
def findA {κ α : Type} [DecidableEq κ] : List (κ × α) → κ → Option α
  | [], _ => none
  | (k', v) :: rest, k => if k = k' then some v else findA rest k

/-- Ordered insert-or-replace on an association list keyed by `Nat`; the
model of `btree_map::operator[]` assignment (children are kept in key
order, as a B-tree map iterates them). -/
def insA {α : Type} : List (Nat × α) → Nat → α → List (Nat × α)
  | [], k, v => [(k, v)]
  | (k', v') :: rest, k, v =>
    if k < k' then (k, v) :: (k', v') :: rest
    else if k = k' then (k, v) :: rest
    else (k', v') :: insA rest k v

/-- Replace the value at a key, or append the binding at the end; the model
of hash-map value update (iteration order is first-touch order, which the
spec explicitly allows). -/
def updA {κ α : Type} [DecidableEq κ] : List (κ × α) → κ → α → List (κ × α)
  | [], k, v => [(k, v)]
  | (k', v') :: rest, k, v =>
    if k = k' then (k, v) :: rest else (k', v') :: updA rest k v

/-- Append an element to the list stored at a key (creating a singleton list
when the key is absent); the model of `map[k].push_back(v)`. -/
def pushA {κ α : Type} [DecidableEq κ] : List (κ × List α) → κ → α → List (κ × List α)
  | [], k, v => [(k, [v])]
  | (k', l) :: rest, k, v =>
    if k = k' then (k, l ++ [v]) :: rest else (k', l) :: pushA rest k v

/-! ### FNV-1a fingerprinting (`fnv_32a_buf` over the word array bytes) -/

/-- The 32-bit FNV prime. -/
def FNV_32_PRIME : Nat := 16777619

/-- The standard 32-bit FNV offset basis (`FNV1_32_INIT = 0x811c9dc5`). -/
def FNV1_32_INIT : Nat := 0x811c9dc5

/-- One FNV-1a step: xor in the byte, multiply by the prime, mod `2^32`. -/
def fnvByte (h b : Nat) : Nat := ((h ^^^ b) * FNV_32_PRIME) % 2 ^ 32

/-- `fnv_32a_buf`: FNV-1a over a byte list from a seed. -/
def fnv_32a_buf (bs : List Nat) (seed : Nat) : Nat := bs.foldl fnvByte seed

/-- The four little-endian bytes of a 32-bit word (x86 layout of the
`uint32_t` fact array the source hashes). -/
def wordLE (w : Nat) : List Nat :=
  [w % 256, w / 256 % 256, w / 2 ^ 16 % 256, w / 2 ^ 24 % 256]

/-- The byte image of a word-id sequence. -/
def factBytes (f : List Word) : List Nat := (f.map wordLE).flatten

/-- The double-FNV fingerprint of a word-id sequence: the main hash (seeded
with `FNV1_32_INIT`) paired with the aux hash (seeded with `1154`). -/
def fingerprint (f : List Word) : Nat × Nat :=
  (fnv_32a_buf (factBytes f) FNV1_32_INIT, fnv_32a_buf (factBytes f) 1154)

/-! ### The lossless trie (`Trie`, `TrieRoot`) -/

/-- A lossless trie node (`Trie`): the `isLeaf` flag, the registered
edge-metadata variants (modelled from the spec as the list of
`(source_sense, type)` pairs, at most four — see `Trie.registerEdge`), and
the ordered child map. -/
inductive Trie where
  | node : Bool → List (Nat × Nat) → List (Nat × Trie) → Trie

/-- The `isLeaf` flag of a node (`data.isLeaf`). -/
def Trie.isLeaf : Trie → Bool
  | .node l _ _ => l

/-- The registered edge-metadata variants of a node. -/
def Trie.info : Trie → List (Nat × Nat)
  | .node _ i _ => i

/-- The ordered child map of a node. -/
def Trie.children : Trie → List (Nat × Trie)
  | .node _ _ c => c

/-- A freshly constructed node (`Trie()`): no leaf flag, no registered
edges, no children. -/
def emptyTrie : Trie := .node false [] []

/-- Modelled from the spec: `Trie::registerEdge` (declared in the missing
`Trie.h`) records the edge's `(source_sense, type)` variant at the node;
a node holds at most four distinct variants ("each child contributes up to
4 completion records, one per registered edge-metadata variant"). -/
def Trie.registerEdge (t : Trie) (e : Edge) : Trie :=
  match t with
  | .node l i c =>
    if (e.source_sense, e.type) ∈ i ∨ 4 ≤ i.length then .node l i c
    else .node l (i ++ [(e.source_sense, e.type)]) c

/-- Mark a node as a leaf (`child->data.isLeaf = true`). -/
def Trie.setLeaf : Trie → Trie
  | .node _ i c => .node true i c

/-- Modelled from the spec: `Trie::getEdges` (missing `Trie.h`) writes one
completion record per registered edge-metadata variant, at most four, with
`sink = 0`, `sink_sense = 0` and `cost = 1.0`; the caller overwrites
`source` afterwards. -/
def Trie.getEdges (t : Trie) : List Edge :=
  (t.info.take 4).map (fun st => ⟨0, st.1, 0, 0, st.2, 1⟩)

/-- `Trie::add`: descend/create one child per edge, register the edge's
metadata when the deletion graph permits it (`g` is
`graph == NULL || graph->containsDeletion(e)`), and mark the final child a
leaf.  A length-0 add is a no-op. -/
def Trie.add (t : Trie) (es : List Edge) (g : Edge → Bool) : Trie :=
  match t, es with
  | t, [] => t
  | .node l i ch, e :: rest =>
    let c0 : Trie := (findA ch e.source).getD emptyTrie
    let c1 : Trie := if g e then c0.registerEdge e else c0
    let c2 : Trie := if rest.isEmpty then c1.setLeaf else c1.add rest g
    .node l i (insA ch e.source c2)

/-- The per-child update one step of `Trie::add` performs: register the
edge's metadata when permitted, then either mark the child a leaf (at the
last element) or recurse. -/
def addChild (c0 : Trie) (e : Edge) (rest : List Edge) (g : Edge → Bool) : Trie :=
  let c1 : Trie := if g e then c0.registerEdge e else c0
  if rest.isEmpty then c1.setLeaf else c1.add rest g

/-- `Trie::addCompletion`: the records one child contributes at buffer
index `idx`.  Below `MAX_COMPLETIONS - 4` the child's records are written
directly; otherwise they go through the 4-record scratch buffer and only
`MAX_COMPLETIONS - idx` of them are copied, so the buffer ends exactly at
the cap.  (The `uint32_t` subtraction cannot wrap: every caller keeps
`idx < MAX_COMPLETIONS`.) -/
def addCompletionL (c : Trie) (source : Word) (idx : Nat) : List Edge :=
  let es := c.getEdges.map (fun e => { e with source := source })
  if idx < MAX_COMPLETIONS - 4 then es else es.take (MAX_COMPLETIONS - idx)

/-- The child-enumeration loop of `Trie::contains` Part 1: add each child's
completions, breaking once the buffer index reaches `MAX_COMPLETIONS`. -/
def emitChildren : List (Nat × Trie) → Nat → List Edge
  | [], _ => []
  | (w, c) :: rest, idx =>
    let ws := addCompletionL c w idx
    let idx' := idx + ws.length
    if MAX_COMPLETIONS ≤ idx' then ws else ws ++ emitChildren rest idx'

/-- The skip-gram loop of `TrieRoot::contains`: for each first-word, emit
the corresponding root child's completions (if that child exists), breaking
at the cap. -/
def emitSkip (firsts : List Word) (chs : List (Nat × Trie)) (idx : Nat) : List Edge :=
  match firsts with
  | [] => []
  | w :: rest =>
    let ws := match findA chs w with
      | some c => addCompletionL c w idx
      | none => []
    let idx' := idx + ws.length
    if MAX_COMPLETIONS ≤ idx' then ws else ws ++ emitSkip rest chs idx'

/-- The `length == 0` loop of `TrieRoot::contains`: emit only root children
that are themselves leaves, breaking at the cap. -/
def emitLeafChildren : List (Nat × Trie) → Nat → List Edge
  | [], _ => []
  | (w, c) :: rest, idx =>
    if c.isLeaf then
      let ws := addCompletionL c w idx
      let idx' := idx + ws.length
      if MAX_COMPLETIONS ≤ idx' then ws else ws ++ emitLeafChildren rest idx'
    else
      emitLeafChildren rest idx

/-- The containment traversal on word ids alone: does the trie store this
exact word sequence as a fact? -/
def Trie.memB (t : Trie) (ws : List Word) : Bool :=
  match t, ws with
  | t, [] => t.isLeaf
  | t, w :: rest =>
    match findA t.children w with
    | none => false
    | some c => c.memB rest

/-- `Trie::contains`: returns the containment boolean and the list of
completion records the call stores into the caller's buffer (in store
order; `idx` is the incoming `mutableIndex`).  Completions are emitted when
`mutationIndex == -1`; with more than `MAX_COMPLETIONS` children the node
emits nothing (the `HIGH_MEMORY` side index is disabled, as in the default
build). -/
def Trie.containsGo (t : Trie) (q : List TaggedWord) (mi : Int) (idx : Nat) :
    Bool × List Edge :=
  let em : List Edge :=
    if mi = -1 then
      if MAX_COMPLETIONS < t.children.length then [] else emitChildren t.children idx
    else []
  match q with
  | [] => (t.isLeaf, em)
  | w :: rest =>
    match findA t.children w.word with
    | none => (false, em)
    | some c =>
      let r := c.containsGo rest (mi - 1) (idx + em.length)
      (r.1, em ++ r.2)

/-- The recursive assertion check of `Trie::contains`: `assert (queryLength
> mutationIndex)` holds at this call and at every recursive call actually
performed. -/
def Trie.assertOk (t : Trie) (q : List TaggedWord) (mi : Int) : Bool :=
  decide ((q.length : Int) > mi) &&
  match q with
  | [] => true
  | w :: rest =>
    match findA t.children w.word with
    | none => true
    | some c => c.assertOk rest (mi - 1)

/-- The trie root (`TrieRoot`): the root node plus the skip-gram index
(second word to the list of first words seen preceding it). -/
structure TrieRoot where
  trie : Trie
  skipGrams : List (Word × List Word)

/-- The empty root. -/
def emptyRoot : TrieRoot := ⟨emptyTrie, []⟩

/-- `TrieRoot::add`: add the fact to the trie and, when the fact has at
least two elements, push the first word onto the skip-gram list of the
second word (duplicates are kept, as `push_back` does). -/
def TrieRoot.add (r : TrieRoot) (es : List Edge) (g : Edge → Bool) : TrieRoot :=
  { trie := r.trie.add es g
    skipGrams :=
      match es with
      | e0 :: e1 :: _ => pushA r.skipGrams e1.source e0.source
      | _ => r.skipGrams }

/-- `TrieRoot::contains`: the root-override protocol for
`mutationIndex == -1` (skip-gram lookup keyed by the query's first word,
fallback to all children, leaf children for the empty query; the inner
traversal then runs with the sentinel `-9000`), the plain traversal
otherwise, and finally the `source = 0` terminator store, executed exactly
when the final buffer index is below `MAX_COMPLETIONS`.  The result is
`(contains, records stored, terminator store executed)`. -/
def TrieRoot.containsQ (r : TrieRoot) (q : List TaggedWord) (mi : Int) :
    Bool × List Edge × Bool :=
  if mi = -1 then
    let em : List Edge :=
      match q with
      | [] => emitLeafChildren r.trie.children 0
      | w :: _ =>
        match findA r.skipGrams w.word with
        | some firsts => emitSkip firsts r.trie.children 0
        | none => emitChildren r.trie.children 0
    let res := r.trie.containsGo q (-9000) em.length
    let recs := em ++ res.2
    (res.1, recs, decide (recs.length < MAX_COMPLETIONS))
  else
    let res := r.trie.containsGo q mi 0
    (res.1, res.2, decide (res.2.length < MAX_COMPLETIONS))

/-- The assertion check of `TrieRoot::contains` together with all the inner
checks of the `Trie::contains` calls it triggers. -/
def TrieRoot.assertOk (r : TrieRoot) (q : List TaggedWord) (mi : Int) : Bool :=
  decide ((q.length : Int) > mi) &&
  (if mi = -1 then r.trie.assertOk q (-9000) else r.trie.assertOk q mi)

/-- Fold a stream of edge-sequences into a trie root (`ReadOldFactTrie`'s
add loop, generically over the already-parsed edge stream). -/
def buildRoot (stream : List (List Edge)) (g : Edge → Bool) : TrieRoot :=
  stream.foldl (fun r es => r.add es g) emptyRoot

/-- Tag a word sequence as a query (`tagged_word` with sense 0). -/
def tag (ws : List Word) : List TaggedWord := ws.map (fun w => ⟨w, 0⟩)

/-- The word-id sequence of an edge sequence (fact identity). -/
def wordsOf (es : List Edge) : List Word := es.map Edge.source

/-! ### The count/pointer map (`HashIntMap`) and the lossy packed index -/

/-- A fingerprint key: the `(mainHash, auxHash)` pair acting as a 64-bit
composite key. -/
abbrev Fp := Nat × Nat

/-- Modelled from the spec: the open-addressed `HashIntMap` (its header is
not under `src/`), viewed as the finite map it implements, with buckets
kept in first-touch order.  The spec allows any fixed iteration order
("implementations MAY iterate buckets in any order provided the same order
is used for sizing"). -/
abbrev HashIntMap := List (Fp × Nat)

/-- Modelled from the spec: `increment(main, aux, delta, cap)` saturates at
the cap (`min(current + delta, cap)`) and allocates on first touch. -/
def HashIntMap.increment (m : HashIntMap) (k : Fp) (delta cap : Nat) : HashIntMap :=
  match findA m k with
  | some v => updA m k (min (v + delta) cap)
  | none => m ++ [(k, min delta cap)]

/-- Modelled from the spec: the cap-less `increment(main, aux, delta)`
overload used for the full-fact bucket; it allocates on first touch. -/
def HashIntMap.incrementNoCap (m : HashIntMap) (k : Fp) (delta : Nat) : HashIntMap :=
  match findA m k with
  | some v => updA m k (v + delta)
  | none => m ++ [(k, delta)]

/-- `counts.sum()`: the sum of all live bucket payloads. -/
def HashIntMap.sumVals (m : HashIntMap) : Nat := (m.map Prod.snd).sum

/-- Modelled from the spec: `sizeof(packed_insertion)`; the record is
byte-packed into (at most) four bytes. -/
def sizeofPI : Nat := 4

/-- The buffer size the `LossyTrie` constructor allocates:
`sum * sizeof(packed_insertion) + sum * sizeof(uint8_t) + sizeof(uint8_t)`. -/
def allocSize (counts : HashIntMap) : Nat :=
  counts.sumVals * sizeofPI + counts.sumVals * 1 + 1

/-- The `mapValues(countToAddr)` pass of the `LossyTrie` constructor: the
cursor starts at 1 (offset 0 is the null guard); each bucket's stored
pointer is `cursor + 1` (just past its flag byte) and the cursor advances
by `count * sizeof(packed_insertion) + 1`.  Returns the rewritten map and
the final cursor value. -/
def mapValuesCursor : HashIntMap → Nat → HashIntMap × Nat
  | [], cur => ([], cur)
  | (k, v) :: rest, cur =>
    let r := mapValuesCursor rest (cur + v * sizeofPI + 1)
    ((k, cur + 1) :: r.1, r.2)

/-- The final cursor value of the pointer-assignment pass. -/
def finalCursor (counts : HashIntMap) : Nat := (mapValuesCursor counts 1).2

/-- The lossy packed index (`LossyTrie`).  The flag byte of the bucket
stored at pointer `p` (at byte `p - 1` in the source) is modelled by its
three bits `isFactB` (0x1), `hasCompB` (0x2) and `fullB` (0x4); the packed
record at slot `i` of that bucket (bytes `p + 4*i .. p + 4*i + 3`) by
`recs p i`.  `begIns` is the `beginInsertions` map for sentence-initial
completions. -/
structure LossyTrie where
  ptrs : HashIntMap
  isFactB : Nat → Bool
  hasCompB : Nat → Bool
  fullB : Nat → Bool
  recs : Nat → Nat → PackedRec
  begIns : List (Word × List PackedRec)

/-- The `LossyTrie` constructor: run the pointer-assignment pass over the
counts map and zero-fill the completion data. -/
def LossyTrie.init (counts : HashIntMap) : LossyTrie :=
  { ptrs := (mapValuesCursor counts 1).1
    isFactB := fun _ => false
    hasCompB := fun _ => false
    fullB := fun _ => false
    recs := fun _ _ => zeroRec
    begIns := [] }

/-- Point update of a bucket slot. -/
def setRec (f : Nat → Nat → PackedRec) (p i : Nat) (r : PackedRec) :
    Nat → Nat → PackedRec :=
  fun p' i' => if p' = p ∧ i' = i then r else f p' i'

/-- Clear the `endOfList` bit of a record
(`insertions[index].endOfList = 0`). -/
def clearEol (r : PackedRec) : PackedRec := { r with endOfList := false }

/-- The record scan shared by `LossyTrie::addCompletion` and
`LossyTrie::contains`, with its remaining iteration count made explicit:
starting from `i` with `fuel` iterations left, the first index whose
record has the `endOfList` bit. -/
def scanGo (slots : Nat → PackedRec) : Nat → Nat → Nat
  | i, 0 => i
  | i, fuel + 1 => if (slots i).endOfList then i else scanGo slots (i + 1) fuel

/-- The record scan from index `i`: the loop guard `index <
MAX_COMPLETIONS` allows exactly `MAX_COMPLETIONS - i` further steps, so the
scan returns the first index at or after `i` carrying the `endOfList` bit,
or `MAX_COMPLETIONS` when there is none before the cap. -/
def scanEol (slots : Nat → PackedRec) (i : Nat) : Nat :=
  scanGo slots i (MAX_COMPLETIONS - i)

/-- `LossyTrie::addCompletion`: build the packed record (with
`endOfList = 1`), look up the bucket of the length-`len` prefix fingerprint
(a missing pointer aborts the build; modelled as leaving the state
unchanged, and proved unreachable in the pipeline), set the
`hasCompletions` bit, and unless the bucket is full: find the slot after
the current terminator (clearing its `endOfList` bit), then either store
the record there or, past the cap, set the `bucketFull` bit and drop the
record. -/
def LossyTrie.addCompletion (t : LossyTrie) (fact : List Word) (len : Nat)
    (source sense ty : Nat) : LossyTrie :=
  let e : PackedRec := ⟨source, sense, ty, true⟩
  match findA t.ptrs (fingerprint (fact.take len)) with
  | none => t
  | some p =>
    let t1 : LossyTrie :=
      { t with hasCompB := fun p' => if p' = p then true else t.hasCompB p' }
    if t1.fullB p then t1
    else if (t1.recs p 0).source = 0 then
      { t1 with recs := setRec t1.recs p 0 e }
    else
      let j := scanEol (t1.recs p) 0
      let t2 : LossyTrie := { t1 with recs := setRec t1.recs p j (clearEol (t1.recs p j)) }
      if j + 1 < MAX_COMPLETIONS then
        { t2 with recs := setRec t2.recs p (j + 1) e }
      else
        { t2 with fullB := fun p' => if p' = p then true else t2.fullB p' }

/-- `LossyTrie::addBeginInsertion`: push a packed record (with
`endOfList = 0`) onto the begin-insertion list of the second word. -/
def LossyTrie.addBegin (t : LossyTrie) (w0 s ty w1 : Nat) : LossyTrie :=
  { t with begIns := pushA t.begIns w1 ⟨w0, s, ty, false⟩ }

/-- `LossyTrie::addFact`: set the `isFact` bit of the full-fact bucket (a
missing pointer aborts the build; modelled as leaving the state
unchanged). -/
def LossyTrie.addFact (t : LossyTrie) (fact : List Word) : LossyTrie :=
  match findA t.ptrs (fingerprint fact) with
  | none => t
  | some p => { t with isFactB := fun p' => if p' = p then true else t.isFactB p' }

/-- Unpack a stored record into an output `edge`
(`sink = 0`, `sink_sense = 0`, `cost = 1.0`). -/
def recToEdge (r : PackedRec) : Edge := ⟨r.source, r.sense, 0, 0, r.type, 1⟩

/-- `LossyTrie::contains`: the containment boolean is the `isFact` bit of
the full-fact fingerprint bucket.  For `mutationIndex ≥ 0` the bucket of
the length-`mutationIndex + 1` prefix is read: its records are copied (the
do-while loop copies slots `0 .. scanEol`, one slot past the last
`endOfList`-free prefix, hence up to `MAX_COMPLETIONS + 1` copies from a
saturated bucket) and the terminator store runs exactly when the copy count
stays below `MAX_COMPLETIONS`; with the `hasCompletions` bit unset the
`uint16_t` index wraps from -1 to 0 and only the terminator is stored; a
missing bucket stores nothing at all.  Otherwise an empty query stores just
the terminator, and a sentence-initial mutation copies from the
begin-insertion list of the first word (nothing at all when that word has
no list).  The result is
`(contains, records stored, terminator store executed)`. -/
def LossyTrie.contains (t : LossyTrie) (q : List TaggedWord) (mi : Int) :
    Bool × List Edge × Bool :=
  let fact : List Word := q.map TaggedWord.word
  let cb : Bool :=
    match findA t.ptrs (fingerprint fact) with
    | some p => t.isFactB p
    | none => false
  if 0 ≤ mi then
    match findA t.ptrs (fingerprint (fact.take (mi.toNat + 1))) with
    | none => (cb, [], false)
    | some p =>
      if t.hasCompB p then
        let n := scanEol (t.recs p) 0 + 1
        (cb, (List.range n).map (fun i => recToEdge (t.recs p i)),
          decide (n < MAX_COMPLETIONS))
      else (cb, [], true)
  else if fact.length = 0 then (cb, [], true)
  else
    match findA t.begIns (fact.headD 0) with
    | none => (cb, [], false)
    | some l =>
      let n := min l.length MAX_COMPLETIONS
      (cb, (l.take n).map recToEdge, decide (n < MAX_COMPLETIONS))

/-! ### The builder pipeline (`completionCounts`, `addFacts`) -/

/-- The word-sense table (`word2sense` from `getWord2Senses`): each word
maps to the edges describing its insertable sense variants. -/
abbrev SenseTable := List (Word × List Edge)

/-- The sense variants of a word; absent words have none. -/
def senses (w2s : SenseTable) (w : Word) : List Edge := (findA w2s w).getD []

/-- The `for (len = 1; len < factLength; ++len)` loop of pass 1, with its
remaining iteration count (`rem = factLength - len`) made explicit:
increment the count at the fingerprint of each proper prefix by the number
of sense variants of the word following it, saturating at
`MAX_COMPLETIONS`. -/
def pass1Go (w2s : SenseTable) (fact : List Word) : HashIntMap → Nat → Nat → HashIntMap
  | m, _, 0 => m
  | m, len, rem + 1 =>
    pass1Go w2s fact
      (m.increment (fingerprint (fact.take len))
        (senses w2s (fact.getD len 0)).length MAX_COMPLETIONS)
      (len + 1) rem

/-- Pass 1 (`completionCounts`) for one fact: the prefix loop (its
`factLength - 1` iterations start at `len = 1`) followed by the cap-less
increment by 0 at the full-fact fingerprint. -/
def completionCountsFact (w2s : SenseTable) (m : HashIntMap) (fact : List Word) :
    HashIntMap :=
  (pass1Go w2s fact m 1 (fact.length - 1)).incrementNoCap (fingerprint fact) 0

/-- Pass 1 over the whole fact stream (`foreachFact` already filtered by
the weight threshold, identically in both passes). -/
def completionCountsAll (w2s : SenseTable) (stream : List (List Word)) : HashIntMap :=
  stream.foldl (completionCountsFact w2s) []

/-- The `for (len = 1; len < factLength; ++len)` loop of pass 2, with its
remaining iteration count made explicit: for each proper prefix whose next
word has more than one sense variant, append one packed record per variant
into the prefix bucket. -/
def pass2Go (w2s : SenseTable) (fact : List Word) : LossyTrie → Nat → Nat → LossyTrie
  | t, _, 0 => t
  | t, len, rem + 1 =>
    let t' :=
      if 1 < (senses w2s (fact.getD len 0)).length then
        (senses w2s (fact.getD len 0)).foldl
          (fun acc e => acc.addCompletion fact len e.source e.source_sense e.type) t
      else t
    pass2Go w2s fact t' (len + 1) rem

/-- Pass 2 (`addFacts`) for one fact: the begin-insertion records when the
first word has more than one sense variant, the mid-fact completions, and
the `isFact` mark. -/
def addFactsFact (w2s : SenseTable) (t : LossyTrie) (fact : List Word) : LossyTrie :=
  let t1 :=
    if 1 < fact.length ∧ 1 < (senses w2s (fact.headD 0)).length then
      (senses w2s (fact.headD 0)).foldl
        (fun acc e => acc.addBegin (fact.headD 0) e.source_sense e.type (fact.getD 1 0)) t
    else t
  (pass2Go w2s fact t1 1 (fact.length - 1)).addFact fact

/-- The full two-pass lossy build (`ReadFactTrie`): pass 1 counts, the
constructor converts counts into pointers, pass 2 fills. -/
def lossyBuild (w2s : SenseTable) (stream : List (List Word)) : LossyTrie :=
  stream.foldl (addFactsFact w2s) (LossyTrie.init (completionCountsAll w2s stream))

/-! ### Spec-side definitions used for refinement claims -/

/-- The pass-1 effect of one fact as the spec words it: "for each prefix
length `ℓ ∈ [1, L)`, increment the map at `fingerprint(prefix of length ℓ)`
by `|senses(fact[ℓ])|`, saturating at `MAX_COMPLETIONS`; additionally
increment by 0 at `fingerprint(entire fact)`". -/
def pass1Spec (w2s : SenseTable) (m : HashIntMap) (fact : List Word) : HashIntMap :=
  ((List.range' 1 (fact.length - 1)).foldl
    (fun acc l =>
      acc.increment (fingerprint (fact.take l))
        (senses w2s (fact.getD l 0)).length MAX_COMPLETIONS)
    m).incrementNoCap (fingerprint fact) 0

/-- The root-override completion emission as the spec describes it: with a
non-empty query, the skip-gram index keyed by the first query word decides
which first-words' children to enumerate, a missing skip-gram entry falls
back to all root children; an empty query enumerates only leaf children. -/
def rootEmitSpec (r : TrieRoot) (q : List TaggedWord) : List Edge :=
  match q with
  | [] => emitLeafChildren r.trie.children 0
  | w :: _ =>
    match findA r.skipGrams w.word with
    | some firsts => emitSkip firsts r.trie.children 0
    | none => emitChildren r.trie.children 0

/-- Key presence in the count/pointer map. -/
def hasKey (m : HashIntMap) (k : Fp) : Bool := (findA m k).isSome

/-- Pointer-directory injectivity: distinct fingerprint keys resolve to
distinct pointers (the pointer pass hands out strictly increasing
pointers). -/
def PtrsInj (m : HashIntMap) : Prop :=
  ∀ k1 k2 p, findA m k1 = some p → findA m k2 = some p → k1 = k2

/-- The `isFact` bits of a lossy state describe exactly the processed
facts: a bucket has the bit set iff the fingerprint of some processed fact
resolves to it. -/
def IsFactSpec (t : LossyTrie) (done : List (List Word)) : Prop :=
  ∀ k p, findA t.ptrs k = some p →
    (t.isFactB p = true ↔ ∃ G ∈ done, fingerprint G = k)

/-- The bucket shape invariant of the lossy index: some `k ≤
MAX_COMPLETIONS` records are stored contiguously from slot 0 (all with a
non-zero source word), all later slots still hold the zero record, and
either the bucket is not full — then the `endOfList` bit sits on exactly
the last stored record (if any) — or it is full, holding exactly
`MAX_COMPLETIONS` records with every `endOfList` bit cleared. -/
def BucketInv (t : LossyTrie) (p : Nat) : Prop :=
  ∃ k ≤ MAX_COMPLETIONS,
    (∀ i < k, (t.recs p i).source ≠ 0) ∧
    (∀ i, k ≤ i → t.recs p i = zeroRec) ∧
    (if t.fullB p then
       k = MAX_COMPLETIONS ∧ ∀ i < k, (t.recs p i).endOfList = false
     else
       k = 0 ∨ ((t.recs p (k - 1)).endOfList = true ∧
         ∀ i < k - 1, (t.recs p i).endOfList = false))

/-! ### Association-list lemmas -/

@[simp]
theorem findA_nil {κ α : Type} [DecidableEq κ] (k : κ) :
    findA ([] : List (κ × α)) k = none := rfl

theorem findA_cons {κ α : Type} [DecidableEq κ] (k' : κ) (v : α) (l : List (κ × α)) (k : κ) :
    findA ((k', v) :: l) k = if k = k' then some v else findA l k := rfl

@[simp]
theorem findA_insA_self {α : Type} (l : List (Nat × α)) (k : Nat) (v : α) :
    findA (insA l k v) k = some v := by
  induction l with
  | nil => simp [insA, findA]
  | cons h t ih =>
    obtain ⟨k', v'⟩ := h
    by_cases h1 : k < k'
    · simp [insA, h1, findA]
    · by_cases h2 : k = k'
      · simp [insA, h1, h2, findA]
      · simp [insA, h1, h2, findA, ih]

theorem findA_insA_ne {α : Type} (l : List (Nat × α)) (k k' : Nat) (v : α)
    (h : k' ≠ k) : findA (insA l k v) k' = findA l k' := by
  induction l with
  | nil => simp [insA, findA, h]
  | cons hd t ih =>
    obtain ⟨k0, v0⟩ := hd
    by_cases h1 : k < k0
    · simp [insA, h1, findA, h]
    · by_cases h2 : k = k0
      · subst h2
        simp [insA, h1, findA, h]
      · by_cases h3 : k' = k0 <;> simp [insA, h1, h2, findA, h3, ih]

theorem insA_insA {α : Type} (l : List (Nat × α)) (k : Nat) (v v' : α) :
    insA (insA l k v) k v' = insA l k v' := by
  induction l with
  | nil => simp [insA]
  | cons hd t ih =>
    obtain ⟨k0, v0⟩ := hd
    by_cases h1 : k < k0
    · simp [insA, h1, lt_irrefl]
    · by_cases h2 : k = k0
      · subst h2
        simp [insA, h1, lt_irrefl]
      · simp [insA, h1, h2, ih]

/-! ### Structural lemmas about trie nodes -/

@[simp]
theorem children_node (l : Bool) (i : List (Nat × Nat)) (c : List (Nat × Trie)) :
    (Trie.node l i c).children = c := rfl

@[simp]
theorem isLeaf_node (l : Bool) (i : List (Nat × Nat)) (c : List (Nat × Trie)) :
    (Trie.node l i c).isLeaf = l := rfl

@[simp]
theorem info_node (l : Bool) (i : List (Nat × Nat)) (c : List (Nat × Trie)) :
    (Trie.node l i c).info = i := rfl

@[simp]
theorem registerEdge_children (t : Trie) (e : Edge) :
    (t.registerEdge e).children = t.children := by
  cases t with
  | node l i c => simp only [Trie.registerEdge]; split <;> rfl

@[simp]
theorem registerEdge_isLeaf (t : Trie) (e : Edge) :
    (t.registerEdge e).isLeaf = t.isLeaf := by
  cases t with
  | node l i c => simp only [Trie.registerEdge]; split <;> rfl

@[simp]
theorem setLeaf_children (t : Trie) : t.setLeaf.children = t.children := by
  cases t; rfl

@[simp]
theorem setLeaf_isLeaf (t : Trie) : t.setLeaf.isLeaf = true := by
  cases t; rfl

theorem registerEdge_idem (t : Trie) (e : Edge) :
    (t.registerEdge e).registerEdge e = t.registerEdge e := by
  cases t with
  | node l i c =>
    by_cases h : (e.source_sense, e.type) ∈ i ∨ 4 ≤ i.length
    · simp [Trie.registerEdge, h]
    · simp only [Trie.registerEdge, if_neg h]
      have : (e.source_sense, e.type) ∈ i ++ [(e.source_sense, e.type)] := by simp
      simp [this]

theorem setLeaf_setLeaf (t : Trie) : t.setLeaf.setLeaf = t.setLeaf := by
  cases t; rfl

theorem registerEdge_setLeaf (t : Trie) (e : Edge) :
    t.setLeaf.registerEdge e = (t.registerEdge e).setLeaf := by
  cases t with
  | node l i c => simp only [Trie.setLeaf, Trie.registerEdge]; split <;> rfl

/-! ### Membership lemmas for the lossless trie -/

theorem memB_nil (t : Trie) : t.memB [] = t.isLeaf := by
  rw [Trie.memB]

theorem memB_cons (t : Trie) (w : Word) (ws : List Word) :
    t.memB (w :: ws) =
      match findA t.children w with
      | none => false
      | some c => c.memB ws := by
  rw [Trie.memB]

theorem memB_registerEdge (t : Trie) (e : Edge) (ws : List Word) :
    (t.registerEdge e).memB ws = t.memB ws := by
  cases ws with
  | nil => simp [memB_nil]
  | cons w rest => simp [memB_cons]

theorem memB_setLeaf_nil (t : Trie) : t.setLeaf.memB [] = true := by
  simp [memB_nil]

theorem memB_setLeaf_cons (t : Trie) (w : Word) (ws : List Word) :
    t.setLeaf.memB (w :: ws) = t.memB (w :: ws) := by
  simp [memB_cons]

@[simp]
theorem memB_empty (ws : List Word) : emptyTrie.memB ws = (false : Bool) := by
  cases ws with
  | nil => simp [memB_nil, emptyTrie]
  | cons w rest => simp [memB_cons, emptyTrie]

theorem add_nil (t : Trie) (g : Edge → Bool) : t.add [] g = t := by
  rw [Trie.add]

theorem add_cons (l : Bool) (i : List (Nat × Nat)) (ch : List (Nat × Trie))
    (e : Edge) (rest : List Edge) (g : Edge → Bool) :
    (Trie.node l i ch).add (e :: rest) g =
      (let c0 : Trie := (findA ch e.source).getD emptyTrie
       let c1 : Trie := if g e then c0.registerEdge e else c0
       let c2 : Trie := if rest.isEmpty then c1.setLeaf else c1.add rest g
       Trie.node l i (insA ch e.source c2)) := by
  rw [Trie.add]

theorem add_cons_addChild (l : Bool) (i : List (Nat × Nat)) (ch : List (Nat × Trie))
    (e : Edge) (rest : List Edge) (g : Edge → Bool) :
    (Trie.node l i ch).add (e :: rest) g =
      Trie.node l i (insA ch e.source
        (addChild ((findA ch e.source).getD emptyTrie) e rest g)) := by
  rw [Trie.add]; rfl

/-- Lemma A: after adding a non-empty fact, its word sequence is a member. -/
theorem memB_add_self (es : List Edge) (t : Trie) (g : Edge → Bool) (h : es ≠ []) :
    (t.add es g).memB (wordsOf es) = true := by
  induction es generalizing t with
  | nil => exact absurd rfl h
  | cons e rest ih =>
    cases t with
    | node l i ch =>
      rw [add_cons]
      simp only [wordsOf, List.map_cons]
      rw [memB_cons]
      simp only [children_node, findA_insA_self]
      cases rest with
      | nil => simp [memB_setLeaf_nil]
      | cons e' rest' =>
        simp only [List.isEmpty_cons, if_neg]
        exact ih _ (by simp)

/-- Lemma B: adding a fact preserves every existing member. -/
theorem memB_add_mono (es : List Edge) (t : Trie) (g : Edge → Bool) (ws : List Word)
    (h : t.memB ws = true) : (t.add es g).memB ws = true := by
  induction es generalizing t ws with
  | nil => rw [add_nil]; exact h
  | cons e rest ih =>
    cases t with
    | node l i ch =>
      rw [add_cons]
      cases ws with
      | nil => rw [memB_nil] at h ⊢; simpa using h
      | cons w ws' =>
        rw [memB_cons] at h
        rw [memB_cons]
        simp only [children_node] at h ⊢
        by_cases hw : w = e.source
        · subst hw
          cases hfind : findA ch e.source with
          | none => rw [hfind] at h; exact absurd h (by simp)
          | some c =>
            rw [hfind] at h
            rw [findA_insA_self]
            simp only
            have h' : c.memB ws' = true := h
            have hc1 : (if g e then c.registerEdge e else c).memB ws' = true := by
              by_cases hg : g e <;> simp [hg, memB_registerEdge, h']
            cases rest with
            | nil =>
              simp only [List.isEmpty_nil, if_pos rfl]
              cases ws' with
              | nil => simp [hfind, memB_setLeaf_nil]
              | cons u us => simp [hfind, memB_setLeaf_cons, hc1]
            | cons e' rest' =>
              simp only [List.isEmpty_cons, if_neg (by simp : ¬(false = true))]
              simp [hfind]
              exact ih _ _ hc1
        · rw [findA_insA_ne _ _ _ _ hw]
          exact h

/-- Lemma C: a member of the trie after an add is either the added fact's
word sequence or was a member before. -/
theorem memB_add_elim (es : List Edge) (t : Trie) (g : Edge → Bool) (ws : List Word)
    (h : (t.add es g).memB ws = true) : ws = wordsOf es ∨ t.memB ws = true := by
  induction es generalizing t ws with
  | nil => rw [add_nil] at h; exact Or.inr h
  | cons e rest ih =>
    cases t with
    | node l i ch =>
      rw [add_cons_addChild] at h
      cases ws with
      | nil =>
        rw [memB_nil] at h
        exact Or.inr (by rw [memB_nil]; simpa using h)
      | cons w ws' =>
        rw [memB_cons] at h
        simp only [children_node] at h
        by_cases hw : w = e.source
        · subst hw
          rw [findA_insA_self] at h
          have h2 : (addChild ((findA ch e.source).getD emptyTrie) e rest g).memB ws' = true := h
          set c0 : Trie := (findA ch e.source).getD emptyTrie with hc0
          have hreg : (if g e then c0.registerEdge e else c0).memB ws' = c0.memB ws' := by
            by_cases hg : g e <;> simp [hg, memB_registerEdge]
          have hback : c0.memB ws' = true → Trie.memB (Trie.node l i ch) (e.source :: ws') = true := by
            intro hc
            rw [memB_cons]
            simp only [children_node]
            cases hfind : findA ch e.source with
            | none => rw [hc0, hfind] at hc; simp at hc
            | some c => rw [hc0, hfind] at hc; exact hc
          cases rest with
          | nil =>
            rw [addChild] at h2
            simp only [List.isEmpty_nil, eq_self_iff_true, if_true] at h2
            cases ws' with
            | nil => exact Or.inl (by simp [wordsOf])
            | cons u us =>
              rw [memB_setLeaf_cons] at h2
              rw [hreg] at h2
              exact Or.inr (hback h2)
          | cons e' rest' =>
            rw [addChild] at h2
            simp only [List.isEmpty_cons, if_neg (by simp : ¬(false = true))] at h2
            rcases ih _ _ h2 with hl | hr
            · exact Or.inl (by simp [wordsOf, hl])
            · rw [hreg] at hr
              exact Or.inr (hback hr)
        · rw [findA_insA_ne _ _ _ _ hw] at h
          refine Or.inr ?_
          rw [memB_cons]
          simpa using h

/-- `registerEdge` commutes with `add`: they touch disjoint parts of the
node. -/
theorem registerEdge_add (t : Trie) (es : List Edge) (g : Edge → Bool) (e : Edge) :
    (t.add es g).registerEdge e = (t.registerEdge e).add es g := by
  cases es with
  | nil => rw [add_nil, add_nil]
  | cons e' rest =>
    cases t with
    | node l i ch =>
      by_cases hc : (e.source_sense, e.type) ∈ i ∨ 4 ≤ i.length
      · simp [add_cons_addChild, Trie.registerEdge, hc]
      · simp [add_cons_addChild, Trie.registerEdge, hc]

/-- A step of `Trie::add` applied twice with the same edge and tail is the
same as applying it once. -/
theorem addChild_idem (c0 : Trie) (e : Edge) (rest : List Edge) (g : Edge → Bool)
    (ih : ∀ c : Trie, (c.add rest g).add rest g = c.add rest g) :
    addChild (addChild c0 e rest g) e rest g = addChild c0 e rest g := by
  by_cases hrest : rest.isEmpty <;> by_cases hg : g e
  · simp [addChild, hrest, hg, registerEdge_setLeaf, registerEdge_idem, setLeaf_setLeaf]
  · simp [addChild, hrest, hg, setLeaf_setLeaf]
  · simp [addChild, hrest, hg, registerEdge_add, registerEdge_idem, ih]
  · simp [addChild, hrest, hg, ih]

/-- `Trie::add` is idempotent on the trie structure. -/
theorem add_idem (es : List Edge) (t : Trie) (g : Edge → Bool) :
    (t.add es g).add es g = t.add es g := by
  induction es generalizing t with
  | nil => rw [add_nil]
  | cons e rest ih =>
    cases t with
    | node l i ch =>
      rw [add_cons_addChild, add_cons_addChild]
      rw [findA_insA_self]
      simp only [Option.getD_some]
      rw [addChild_idem _ _ _ _ (fun c => ih c), insA_insA]

/-! ### The containment boolean and the emission of `contains` -/

/-- The containment boolean of `Trie::contains` is exactly the word-path
membership test; it does not depend on the mutation index or the buffer
index. -/
theorem containsGo_fst (q : List TaggedWord) (t : Trie) (mi : Int) (idx : Nat) :
    (t.containsGo q mi idx).1 = t.memB (q.map TaggedWord.word) := by
  induction q generalizing t mi idx with
  | nil => rw [Trie.containsGo]; simp [memB_nil]
  | cons w rest ih =>
    rw [Trie.containsGo]
    rw [List.map_cons, memB_cons]
    simp only
    cases hfind : findA t.children w.word <;> simp [hfind, ih]

/-- Below `-1` the mutation index never triggers completion emission: the
inner traversal stores no records. -/
theorem containsGo_noEmit (q : List TaggedWord) (t : Trie) (mi : Int) (idx : Nat)
    (h : mi < -1) : (t.containsGo q mi idx).2 = [] := by
  induction q generalizing t mi idx with
  | nil =>
    rw [Trie.containsGo]
    simp [show ¬(mi = -1) by omega]
  | cons w rest ih =>
    rw [Trie.containsGo]
    simp only [show ¬(mi = -1) by omega, if_false]
    cases hfind : findA t.children w.word <;>
      simp [hfind, ih _ _ _ (show mi - 1 < -1 by omega)]

/-- The containment boolean of `TrieRoot::contains` is the word-path
membership test, for every mutation index. -/
theorem containsQ_fst (r : TrieRoot) (q : List TaggedWord) (mi : Int) :
    (r.containsQ q mi).1 = r.trie.memB (q.map TaggedWord.word) := by
  by_cases h : mi = -1 <;> simp [TrieRoot.containsQ, h, containsGo_fst]

@[simp]
theorem TrieRoot.add_trie (r : TrieRoot) (es : List Edge) (g : Edge → Bool) :
    (r.add es g).trie = r.trie.add es g := rfl

/-- Folding more adds preserves membership. -/
theorem foldAdd_mono (stream : List (List Edge)) (g : Edge → Bool) (r : TrieRoot)
    (ws : List Word) (h : r.trie.memB ws = true) :
    ((stream.foldl (fun r es => r.add es g) r).trie.memB ws) = true := by
  induction stream generalizing r with
  | nil => exact h
  | cons a rest ih =>
    exact ih _ (by rw [TrieRoot.add_trie]; exact memB_add_mono _ _ _ _ h)

/-- Every fact of the stream is a member of the built trie. -/
theorem foldAdd_mem (stream : List (List Edge)) (g : Edge → Bool) (r : TrieRoot)
    (es : List Edge) (h : es ∈ stream) (hne : es ≠ []) :
    ((stream.foldl (fun r es => r.add es g) r).trie.memB (wordsOf es)) = true := by
  induction stream generalizing r with
  | nil => simp at h
  | cons a rest ih =>
    simp only [List.foldl_cons]
    rcases List.mem_cons.mp h with rfl | hmem
    · refine foldAdd_mono rest g (r.add es g) _ ?_
      rw [TrieRoot.add_trie]
      exact memB_add_self _ _ _ hne
    · exact ih _ hmem

/-- Every member of the built trie is the word sequence of some stream
fact. -/
theorem foldAdd_elim (stream : List (List Edge)) (g : Edge → Bool) (r : TrieRoot)
    (ws : List Word)
    (h : ((stream.foldl (fun r es => r.add es g) r).trie.memB ws) = true) :
    (∃ es ∈ stream, wordsOf es = ws) ∨ r.trie.memB ws = true := by
  induction stream generalizing r with
  | nil => exact Or.inr h
  | cons a rest ih =>
    simp only [List.foldl_cons] at h
    rcases ih _ h with ⟨es, hmem, hws⟩ | hr
    · exact Or.inl ⟨es, List.mem_cons_of_mem _ hmem, hws⟩
    · rw [TrieRoot.add_trie] at hr
      rcases memB_add_elim _ _ _ _ hr with rfl | hold
      · exact Or.inl ⟨a, List.mem_cons_self _ _, rfl⟩
      · exact Or.inr hold

/-! ### Count/pointer map lemmas -/

@[simp]
theorem findA_updA_self {κ α : Type} [DecidableEq κ] (l : List (κ × α)) (k : κ) (v : α) :
    findA (updA l k v) k = some v := by
  induction l with
  | nil => simp [updA, findA]
  | cons hd t ih =>
    obtain ⟨k0, v0⟩ := hd
    by_cases h : k = k0 <;> simp [updA, h, findA, ih]

theorem findA_updA_ne {κ α : Type} [DecidableEq κ] (l : List (κ × α)) (k k' : κ) (v : α)
    (h : k' ≠ k) : findA (updA l k v) k' = findA l k' := by
  induction l with
  | nil => simp [updA, findA, h]
  | cons hd t ih =>
    obtain ⟨k0, v0⟩ := hd
    by_cases h1 : k = k0
    · subst h1
      simp [updA, findA, h, ih]
    · by_cases h2 : k' = k0 <;> simp [updA, findA, h1, h2, ih]

theorem findA_append_left {κ α : Type} [DecidableEq κ] (l l' : List (κ × α)) (k : κ)
    (v : α) (h : findA l k = some v) : findA (l ++ l') k = some v := by
  induction l with
  | nil => simp [findA] at h
  | cons hd t ih =>
    obtain ⟨k0, v0⟩ := hd
    by_cases h1 : k = k0
    · simp_all [findA_cons]
    · simp_all [findA_cons]

theorem findA_append_right {κ α : Type} [DecidableEq κ] (l l' : List (κ × α)) (k : κ)
    (h : findA l k = none) : findA (l ++ l') k = findA l' k := by
  induction l with
  | nil => simp
  | cons hd t ih =>
    obtain ⟨k0, v0⟩ := hd
    by_cases h1 : k = k0 <;> simp_all [findA_cons]

/-- `increment` keeps every present key present. -/
theorem hasKey_increment (m : HashIntMap) (k k' : Fp) (d c : Nat)
    (h : hasKey m k = true) : hasKey (m.increment k' d c) k = true := by
  rw [hasKey] at h ⊢
  rw [HashIntMap.increment]
  cases hk' : findA m k' with
  | some v =>
    by_cases he : k = k'
    · subst he; simp
    · rw [findA_updA_ne _ _ _ _ he]; exact h
  | none =>
    cases hfk : findA m k with
    | none => rw [hfk] at h; simp at h
    | some v => rw [findA_append_left _ _ _ _ hfk]; rfl

/-- `incrementNoCap` keeps every present key present. -/
theorem hasKey_incrementNoCap (m : HashIntMap) (k k' : Fp) (d : Nat)
    (h : hasKey m k = true) : hasKey (m.incrementNoCap k' d) k = true := by
  rw [hasKey] at h ⊢
  rw [HashIntMap.incrementNoCap]
  cases hk' : findA m k' with
  | some v =>
    by_cases he : k = k'
    · subst he; simp
    · rw [findA_updA_ne _ _ _ _ he]; exact h
  | none =>
    cases hfk : findA m k with
    | none => rw [hfk] at h; simp at h
    | some v => rw [findA_append_left _ _ _ _ hfk]; rfl

/-- `incrementNoCap` makes its own key present. -/
theorem hasKey_incrementNoCap_self (m : HashIntMap) (k : Fp) (d : Nat) :
    hasKey (m.incrementNoCap k d) k = true := by
  rw [hasKey, HashIntMap.incrementNoCap]
  cases hk : findA m k with
  | some v => simp
  | none => rw [findA_append_right _ _ _ hk]; simp [findA_cons]

/-- The pointer pass preserves the key set. -/
theorem hasKey_mapValuesCursor (m : HashIntMap) (cur : Nat) (k : Fp) :
    ((findA (mapValuesCursor m cur).1 k).isSome) = ((findA m k).isSome) := by
  induction m generalizing cur with
  | nil => simp [mapValuesCursor]
  | cons hd t ih =>
    obtain ⟨k0, v0⟩ := hd
    by_cases h : k = k0 <;> simp [mapValuesCursor, findA_cons, h, ih]

/-- Every pointer handed out by the pass from cursor `cur` exceeds `cur`. -/
theorem mapValuesCursor_mem (m : HashIntMap) (cur : Nat) (k : Fp) (v : Nat)
    (h : (k, v) ∈ (mapValuesCursor m cur).1) : cur < v := by
  induction m generalizing cur with
  | nil => simp [mapValuesCursor] at h
  | cons hd t ih =>
    obtain ⟨k0, v0⟩ := hd
    simp only [mapValuesCursor, List.mem_cons] at h
    rcases h with h | h
    · cases h; omega
    · have := ih _ h
      omega

theorem findA_mem {κ α : Type} [DecidableEq κ] (l : List (κ × α)) (k : κ) (v : α)
    (h : findA l k = some v) : (k, v) ∈ l := by
  induction l with
  | nil => simp [findA] at h
  | cons hd t ih =>
    obtain ⟨k0, v0⟩ := hd
    by_cases h1 : k = k0
    · subst h1
      rw [findA_cons] at h
      simp only [if_pos rfl] at h
      cases h
      exact List.mem_cons_self _ _
    · rw [findA_cons] at h
      rw [if_neg h1] at h
      exact List.mem_cons_of_mem _ (ih h)

/-- The pointer directory handed out by the pointer pass is injective. -/
theorem ptrsInj_mapValuesCursor (m : HashIntMap) (cur : Nat) :
    PtrsInj (mapValuesCursor m cur).1 := by
  induction m generalizing cur with
  | nil => intro k1 k2 p h1 h2; simp [mapValuesCursor] at h1
  | cons hd t ih =>
    obtain ⟨k0, v0⟩ := hd
    intro k1 k2 p h1 h2
    simp only [mapValuesCursor] at h1 h2
    rw [findA_cons] at h1 h2
    by_cases e1 : k1 = k0 <;> by_cases e2 : k2 = k0
    · rw [e1, e2]
    · rw [if_pos e1] at h1
      rw [if_neg e2] at h2
      cases h1
      have := mapValuesCursor_mem _ _ _ _ (findA_mem _ _ _ h2)
      omega
    · rw [if_neg e1] at h1
      rw [if_pos e2] at h2
      cases h2
      have := mapValuesCursor_mem _ _ _ _ (findA_mem _ _ _ h1)
      omega
    · rw [if_neg e1] at h1
      rw [if_neg e2] at h2
      exact ih _ _ _ _ h1 h2

/-! ### Pass 1 lemmas -/

/-- The pass-1 prefix loop unrolled as a fold over the prefix lengths
`len, len+1, …, len+rem-1`. -/
theorem pass1Go_eq_fold (w2s : SenseTable) (fact : List Word) :
    ∀ rem len m,
    pass1Go w2s fact m len rem =
      (List.range' len rem).foldl
        (fun acc l => acc.increment (fingerprint (fact.take l))
          (senses w2s (fact.getD l 0)).length MAX_COMPLETIONS) m := by
  intro rem
  induction rem with
  | zero =>
    intro len m
    rfl
  | succ n ih =>
    intro len m
    rw [pass1Go, ih (len + 1) _]
    rfl

/-- Presence of a key is preserved by the pass-1 prefix loop. -/
theorem hasKey_pass1Go (w2s : SenseTable) (fact : List Word) (m : HashIntMap)
    (len rem : Nat) (k : Fp) (h : hasKey m k = true) :
    hasKey (pass1Go w2s fact m len rem) k = true := by
  rw [pass1Go_eq_fold w2s fact rem len m]
  generalize List.range' len rem = L
  induction L generalizing m with
  | nil => exact h
  | cons a t ih => exact ih _ (hasKey_increment _ _ _ _ _ h)

/-- Pass 1 for a fact makes the full-fact fingerprint key present. -/
theorem hasKey_completionCountsFact_self (w2s : SenseTable) (m : HashIntMap)
    (fact : List Word) :
    hasKey (completionCountsFact w2s m fact) (fingerprint fact) = true := by
  rw [completionCountsFact]
  exact hasKey_incrementNoCap_self _ _ _

/-- Pass 1 for a fact keeps every present key present. -/
theorem hasKey_completionCountsFact (w2s : SenseTable) (m : HashIntMap)
    (fact : List Word) (k : Fp) (h : hasKey m k = true) :
    hasKey (completionCountsFact w2s m fact) k = true := by
  rw [completionCountsFact]
  exact hasKey_incrementNoCap _ _ _ _ (hasKey_pass1Go _ _ _ _ _ _ h)

/-- After pass 1 over the stream, every stream fact's fingerprint key is
present. -/
theorem hasKey_pass1_fold (w2s : SenseTable) (stream : List (List Word))
    (F : List Word) :
    ∀ m : HashIntMap, hasKey m (fingerprint F) = true ∨ F ∈ stream →
      hasKey (stream.foldl (completionCountsFact w2s) m) (fingerprint F) = true := by
  induction stream with
  | nil =>
    intro m hm
    rcases hm with hm | hm
    · exact hm
    · simp at hm
  | cons a t ih =>
    intro m hm
    simp only [List.foldl_cons]
    refine ih _ ?_
    rcases hm with hm | hm
    · exact Or.inl (hasKey_completionCountsFact _ _ _ _ hm)
    · rcases List.mem_cons.mp hm with rfl | hmem
      · exact Or.inl (hasKey_completionCountsFact_self _ _ _)
      · exact Or.inr hmem

theorem hasKey_completionCountsAll (w2s : SenseTable) (stream : List (List Word))
    (F : List Word) (h : F ∈ stream) :
    hasKey (completionCountsAll w2s stream) (fingerprint F) = true := by
  rw [completionCountsAll]
  exact hasKey_pass1_fold w2s stream F [] (Or.inr h)

/-! ### Lossy state preservation lemmas -/

@[simp]
theorem addCompletion_ptrs (t : LossyTrie) (fact : List Word) (len s se ty : Nat) :
    (t.addCompletion fact len s se ty).ptrs = t.ptrs := by
  rw [LossyTrie.addCompletion]
  cases findA t.ptrs (fingerprint (fact.take len)) with
  | none => rfl
  | some p =>
    simp only
    split
    · rfl
    · split
      · rfl
      · split <;> rfl

@[simp]
theorem addCompletion_isFactB (t : LossyTrie) (fact : List Word) (len s se ty : Nat) :
    (t.addCompletion fact len s se ty).isFactB = t.isFactB := by
  rw [LossyTrie.addCompletion]
  cases findA t.ptrs (fingerprint (fact.take len)) with
  | none => rfl
  | some p =>
    simp only
    split
    · rfl
    · split
      · rfl
      · split <;> rfl

@[simp]
theorem addBegin_ptrs (t : LossyTrie) (w0 s ty w1 : Nat) :
    (t.addBegin w0 s ty w1).ptrs = t.ptrs := rfl

@[simp]
theorem addBegin_isFactB (t : LossyTrie) (w0 s ty w1 : Nat) :
    (t.addBegin w0 s ty w1).isFactB = t.isFactB := rfl

@[simp]
theorem addFact_ptrs (t : LossyTrie) (fact : List Word) :
    (t.addFact fact).ptrs = t.ptrs := by
  rw [LossyTrie.addFact]
  cases findA t.ptrs (fingerprint fact) <;> rfl

theorem foldAddCompletion_ptrs (L : List Edge) (fact : List Word) (len : Nat)
    (t : LossyTrie) :
    ((L.foldl (fun acc e => acc.addCompletion fact len e.source e.source_sense e.type) t).ptrs)
      = t.ptrs := by
  induction L generalizing t with
  | nil => rfl
  | cons a rest ih => rw [List.foldl_cons, ih, addCompletion_ptrs]

theorem foldAddCompletion_isFactB (L : List Edge) (fact : List Word) (len : Nat)
    (t : LossyTrie) :
    ((L.foldl (fun acc e => acc.addCompletion fact len e.source e.source_sense e.type) t).isFactB)
      = t.isFactB := by
  induction L generalizing t with
  | nil => rfl
  | cons a rest ih => rw [List.foldl_cons, ih, addCompletion_isFactB]

theorem pass2Go_ptrs (w2s : SenseTable) (fact : List Word) :
    ∀ rem t len, (pass2Go w2s fact t len rem).ptrs = t.ptrs := by
  intro rem
  induction rem with
  | zero => intro t len; rfl
  | succ n ih =>
    intro t len
    rw [pass2Go]
    rw [ih _ (len + 1)]
    split
    · exact foldAddCompletion_ptrs _ _ _ _
    · rfl

theorem pass2Go_isFactB (w2s : SenseTable) (fact : List Word) :
    ∀ rem t len, (pass2Go w2s fact t len rem).isFactB = t.isFactB := by
  intro rem
  induction rem with
  | zero => intro t len; rfl
  | succ n ih =>
    intro t len
    rw [pass2Go]
    rw [ih _ (len + 1)]
    split
    · exact foldAddCompletion_isFactB _ _ _ _
    · rfl

theorem foldAddBegin_ptrs (L : List Edge) (w0 w1 : Nat) (t : LossyTrie) :
    ((L.foldl (fun acc e => acc.addBegin w0 e.source_sense e.type w1) t).ptrs) = t.ptrs := by
  induction L generalizing t with
  | nil => rfl
  | cons a rest ih => rw [List.foldl_cons, ih, addBegin_ptrs]

theorem foldAddBegin_isFactB (L : List Edge) (w0 w1 : Nat) (t : LossyTrie) :
    ((L.foldl (fun acc e => acc.addBegin w0 e.source_sense e.type w1) t).isFactB)
      = t.isFactB := by
  induction L generalizing t with
  | nil => rfl
  | cons a rest ih => rw [List.foldl_cons, ih, addBegin_isFactB]

theorem addFactsFact_ptrs (w2s : SenseTable) (t : LossyTrie) (F : List Word) :
    (addFactsFact w2s t F).ptrs = t.ptrs := by
  rw [addFactsFact]
  rw [addFact_ptrs, pass2Go_ptrs w2s F (F.length - 1) _ 1]
  split
  · exact foldAddBegin_ptrs _ _ _ _
  · rfl

/-! ### The `isFact` invariant of the lossy build -/

theorem isFactSpec_congr (t t' : LossyTrie) (done : List (List Word))
    (hp : t'.ptrs = t.ptrs) (hf : t'.isFactB = t.isFactB)
    (h : IsFactSpec t done) : IsFactSpec t' done := by
  intro k p hk
  rw [hp] at hk
  rw [hf]
  exact h k p hk

theorem isFactSpec_addFact (t : LossyTrie) (F : List Word) (done : List (List Word))
    (hinj : PtrsInj t.ptrs) (h : IsFactSpec t done) :
    IsFactSpec (t.addFact F) (done ++ [F]) := by
  intro k p hk
  rw [addFact_ptrs] at hk
  rw [LossyTrie.addFact]
  cases hF : findA t.ptrs (fingerprint F) with
  | none =>
    simp only
    rw [h k p hk]
    constructor
    · rintro ⟨G, hG, hfp⟩
      exact ⟨G, by simp [hG], hfp⟩
    · rintro ⟨G, hG, hfp⟩
      rcases List.mem_append.mp hG with hG | hG
      · exact ⟨G, hG, hfp⟩
      · simp only [List.mem_singleton] at hG
        subst hG
        rw [hfp] at hF
        rw [hk] at hF
        cases hF
  | some pF =>
    simp only
    by_cases hp : p = pF
    · subst hp
      have hkey : k = fingerprint F := hinj _ _ _ hk hF
      subst hkey
      simp only [if_pos rfl]
      constructor
      · intro _
        exact ⟨F, by simp, rfl⟩
      · intro _
        rfl
    · simp only [if_neg hp]
      rw [h k p hk]
      constructor
      · rintro ⟨G, hG, hfp⟩
        exact ⟨G, by simp [hG], hfp⟩
      · rintro ⟨G, hG, hfp⟩
        rcases List.mem_append.mp hG with hG | hG
        · exact ⟨G, hG, hfp⟩
        · simp only [List.mem_singleton] at hG
          subst hG
          rw [hfp] at hF
          rw [hk] at hF
          cases hF
          exact absurd rfl hp

theorem isFactSpec_addFactsFact (w2s : SenseTable) (t : LossyTrie) (F : List Word)
    (done : List (List Word)) (hinj : PtrsInj t.ptrs) (h : IsFactSpec t done) :
    IsFactSpec (addFactsFact w2s t F) (done ++ [F]) := by
  rw [addFactsFact]
  set t1 : LossyTrie :=
    if 1 < F.length ∧ 1 < (senses w2s (F.headD 0)).length then
      (senses w2s (F.headD 0)).foldl
        (fun acc e => acc.addBegin (F.headD 0) e.source_sense e.type (F.getD 1 0)) t
    else t with ht1
  have h1p : t1.ptrs = t.ptrs := by
    rw [ht1]; split
    · exact foldAddBegin_ptrs _ _ _ _
    · rfl
  have h1f : t1.isFactB = t.isFactB := by
    rw [ht1]; split
    · exact foldAddBegin_isFactB _ _ _ _
    · rfl
  have h2p : (pass2Go w2s F t1 1 (F.length - 1)).ptrs = t.ptrs := by
    rw [pass2Go_ptrs w2s F (F.length - 1) _ 1, h1p]
  have h2f : (pass2Go w2s F t1 1 (F.length - 1)).isFactB = t.isFactB := by
    rw [pass2Go_isFactB w2s F (F.length - 1) _ 1, h1f]
  refine isFactSpec_addFact _ _ _ ?_ ?_
  · rw [h2p]; exact hinj
  · exact isFactSpec_congr _ _ _ h2p h2f h

theorem isFactSpec_fold (w2s : SenseTable) (stream : List (List Word)) :
    ∀ (t : LossyTrie) (done : List (List Word)), PtrsInj t.ptrs → IsFactSpec t done →
      IsFactSpec (stream.foldl (addFactsFact w2s) t) (done ++ stream) := by
  induction stream with
  | nil =>
    intro t done hinj h
    simpa using h
  | cons F rest ih =>
    intro t done hinj h
    simp only [List.foldl_cons]
    have hstep := isFactSpec_addFactsFact w2s t F done hinj h
    have hinj' : PtrsInj (addFactsFact w2s t F).ptrs := by
      rw [addFactsFact_ptrs]; exact hinj
    have := ih (addFactsFact w2s t F) (done ++ [F]) hinj' hstep
    simpa using this

theorem lossyBuild_ptrs (w2s : SenseTable) (stream : List (List Word)) :
    (lossyBuild w2s stream).ptrs
      = (mapValuesCursor (completionCountsAll w2s stream) 1).1 := by
  rw [lossyBuild]
  generalize hinit : LossyTrie.init (completionCountsAll w2s stream) = t0
  have : ∀ (L : List (List Word)) (t : LossyTrie),
      (L.foldl (addFactsFact w2s) t).ptrs = t.ptrs := by
    intro L
    induction L with
    | nil => intro t; rfl
    | cons a rest ih =>
      intro t
      rw [List.foldl_cons, ih, addFactsFact_ptrs]
  rw [this, ← hinit]
  rfl

theorem lossyBuild_isFactSpec (w2s : SenseTable) (stream : List (List Word)) :
    IsFactSpec (lossyBuild w2s stream) stream := by
  rw [lossyBuild]
  have hinit : IsFactSpec (LossyTrie.init (completionCountsAll w2s stream)) [] := by
    intro k p hk
    simp [LossyTrie.init]
  have hinj : PtrsInj (LossyTrie.init (completionCountsAll w2s stream)).ptrs :=
    ptrsInj_mapValuesCursor _ _
  have := isFactSpec_fold w2s stream _ [] hinj hinit
  simpa using this

theorem lossyBuild_ptrsInj (w2s : SenseTable) (stream : List (List Word)) :
    PtrsInj (lossyBuild w2s stream).ptrs := by
  rw [lossyBuild_ptrs]
  exact ptrsInj_mapValuesCursor _ _

/-- The containment boolean of `LossyTrie::contains` is the `isFact` bit of
the full-fact fingerprint bucket, in every branch. -/
theorem lossyContains_fst (t : LossyTrie) (q : List TaggedWord) (mi : Int) :
    (t.contains q mi).1 =
      (match findA t.ptrs (fingerprint (q.map TaggedWord.word)) with
        | some p => t.isFactB p
        | none => false) := by
  rw [LossyTrie.contains]
  by_cases h0 : 0 ≤ mi
  · simp only [if_pos h0]
    cases findA t.ptrs (fingerprint ((q.map TaggedWord.word).take (mi.toNat + 1))) with
    | none => rfl
    | some p =>
      simp only
      split <;> rfl
  · simp only [if_neg h0]
    split
    · rfl
    · cases findA t.begIns ((q.map TaggedWord.word).headD 0) <;> rfl

@[simp]
theorem tag_words (ws : List Word) : (tag ws).map TaggedWord.word = ws := by
  induction ws with
  | nil => rfl
  | cons w rest ih => simp [tag] at ih ⊢; exact ih

/-- The effect of one pass-2 fact on the `isFact` bits: the bit of the
full-fact fingerprint bucket is set; nothing else changes. -/
theorem addFactsFact_isFactB (w2s : SenseTable) (t : LossyTrie) (F : List Word) :
    (addFactsFact w2s t F).isFactB = fun p' =>
      match findA t.ptrs (fingerprint F) with
      | none => t.isFactB p'
      | some pF => if p' = pF then true else t.isFactB p' := by
  rw [addFactsFact]
  set t1 : LossyTrie :=
    if 1 < F.length ∧ 1 < (senses w2s (F.headD 0)).length then
      (senses w2s (F.headD 0)).foldl
        (fun acc e => acc.addBegin (F.headD 0) e.source_sense e.type (F.getD 1 0)) t
    else t with ht1
  have h1p : t1.ptrs = t.ptrs := by
    rw [ht1]; split
    · exact foldAddBegin_ptrs _ _ _ _
    · rfl
  have h1f : t1.isFactB = t.isFactB := by
    rw [ht1]; split
    · exact foldAddBegin_isFactB _ _ _ _
    · rfl
  have h2p : (pass2Go w2s F t1 1 (F.length - 1)).ptrs = t.ptrs := by
    rw [pass2Go_ptrs w2s F (F.length - 1) _ 1, h1p]
  have h2f : (pass2Go w2s F t1 1 (F.length - 1)).isFactB = t.isFactB := by
    rw [pass2Go_isFactB w2s F (F.length - 1) _ 1, h1f]
  rw [LossyTrie.addFact, h2p]
  cases hF : findA t.ptrs (fingerprint F) with
  | none => exact h2f
  | some pF =>
    simp only
    funext p'
    rw [h2f]

/-! ### Output-size bounds -/

theorem getEdges_length (t : Trie) : t.getEdges.length ≤ 4 := by
  rw [Trie.getEdges]
  simp [List.length_take]

theorem addCompletionL_length (c : Trie) (w : Word) (idx : Nat) :
    (addCompletionL c w idx).length ≤ MAX_COMPLETIONS - idx := by
  rw [addCompletionL]
  have h4 : (c.getEdges.map (fun e => { e with source := w })).length ≤ 4 := by
    rw [List.length_map]
    exact getEdges_length c
  split
  · rw [MAX_COMPLETIONS] at *
    omega
  · simp only [List.length_take]
    omega

theorem emitChildren_length (chs : List (Nat × Trie)) (idx : Nat) :
    (emitChildren chs idx).length ≤ MAX_COMPLETIONS - idx := by
  induction chs generalizing idx with
  | nil => simp [emitChildren]
  | cons hd rest ih =>
    obtain ⟨w, c⟩ := hd
    rw [emitChildren]
    have h1 := addCompletionL_length c w idx
    split
    · exact h1
    · rename_i hlt
      have h2 := ih (idx + (addCompletionL c w idx).length)
      simp only [List.length_append]
      omega

theorem emitSkip_length (firsts : List Word) (chs : List (Nat × Trie)) (idx : Nat) :
    (emitSkip firsts chs idx).length ≤ MAX_COMPLETIONS - idx := by
  induction firsts generalizing idx with
  | nil => simp [emitSkip]
  | cons w rest ih =>
    rw [emitSkip]
    set ws : List Edge := (match findA chs w with
      | some c => addCompletionL c w idx
      | none => []) with hws
    have h1 : ws.length ≤ MAX_COMPLETIONS - idx := by
      rw [hws]
      cases findA chs w with
      | none => simp
      | some c => exact addCompletionL_length c w idx
    split
    · exact h1
    · have h2 := ih (idx + ws.length)
      simp only [List.length_append]
      omega

theorem emitLeafChildren_length (chs : List (Nat × Trie)) (idx : Nat) :
    (emitLeafChildren chs idx).length ≤ MAX_COMPLETIONS - idx := by
  induction chs generalizing idx with
  | nil => simp [emitLeafChildren]
  | cons hd rest ih =>
    obtain ⟨w, c⟩ := hd
    simp only [emitLeafChildren]
    split
    · have h1 := addCompletionL_length c w idx
      split
      · exact h1
      · have h2 := ih (idx + (addCompletionL c w idx).length)
        simp only [List.length_append]
        omega
    · exact ih idx

theorem containsGo_length (q : List TaggedWord) (t : Trie) (mi : Int) (idx : Nat) :
    (t.containsGo q mi idx).2.length ≤ MAX_COMPLETIONS - idx := by
  induction q generalizing t mi idx with
  | nil =>
    rw [Trie.containsGo]
    simp only
    split
    · split
      · simp
      · exact emitChildren_length _ _
    · simp
  | cons w rest ih =>
    rw [Trie.containsGo]
    simp only
    have hem : (if mi = -1 then
        if MAX_COMPLETIONS < t.children.length then [] else emitChildren t.children idx
      else []).length ≤ MAX_COMPLETIONS - idx := by
      split
      · split
        · simp
        · exact emitChildren_length _ _
      · simp
    set em : List Edge := (if mi = -1 then
        if MAX_COMPLETIONS < t.children.length then [] else emitChildren t.children idx
      else []) with hemdef
    cases hfind : findA t.children w.word with
    | none => exact hem
    | some c =>
      simp only [List.length_append]
      have h2 := ih c (mi - 1) (idx + em.length)
      omega

theorem containsQ_length (r : TrieRoot) (q : List TaggedWord) (mi : Int) :
    (r.containsQ q mi).2.1.length ≤ MAX_COMPLETIONS := by
  simp only [TrieRoot.containsQ]
  split
  · set em : List Edge := (match q with
      | [] => emitLeafChildren r.trie.children 0
      | w :: _ =>
        match findA r.skipGrams w.word with
        | some firsts => emitSkip firsts r.trie.children 0
        | none => emitChildren r.trie.children 0) with hemdef
    simp only [List.length_append]
    have hem : em.length ≤ MAX_COMPLETIONS := by
      rw [hemdef]
      cases q with
      | nil => simpa using emitLeafChildren_length r.trie.children 0
      | cons w rest =>
        cases hsg : findA r.skipGrams w.word with
        | none => simpa [hsg] using emitChildren_length r.trie.children 0
        | some firsts => simpa [hsg] using emitSkip_length firsts r.trie.children 0
    have hin := containsGo_length q r.trie (-9000) em.length
    omega
  · simpa using containsGo_length q r.trie mi 0

theorem scanGo_le (slots : Nat → PackedRec) :
    ∀ fuel i, scanGo slots i fuel ≤ i + fuel := by
  intro fuel
  induction fuel with
  | zero => intro i; simp [scanGo]
  | succ n ih =>
    intro i
    rw [scanGo]
    split
    · omega
    · have := ih (i + 1)
      omega

/-- If some slot below the cap carries the `endOfList` bit, the scan stops
at or before it. -/
theorem scanGo_le_mark (slots : Nat → PackedRec) :
    ∀ fuel i j, i ≤ j → j < i + fuel → (slots j).endOfList = true →
      scanGo slots i fuel ≤ j := by
  intro fuel
  induction fuel with
  | zero => intro i j h1 h2; omega
  | succ n ih =>
    intro i j h1 h2 h3
    rw [scanGo]
    split
    · exact h1
    · rename_i hne
      have hij : i ≠ j := by
        intro he
        rw [he] at hne
        exact hne h3
      exact ih (i + 1) j (by omega) (by omega) h3

theorem lossyContains_length (t : LossyTrie) (q : List TaggedWord) (mi : Int) :
    (t.contains q mi).2.1.length ≤ MAX_COMPLETIONS + 1 := by
  rw [LossyTrie.contains]
  split
  · cases findA t.ptrs (fingerprint ((q.map TaggedWord.word).take (mi.toNat + 1))) with
    | none => simp
    | some p =>
      simp only
      split
      · simp only [List.length_map, List.length_range]
        rw [scanEol]
        have := scanGo_le (t.recs p) (MAX_COMPLETIONS - 0) 0
        omega
      · simp
  · split
    · simp
    · cases findA t.begIns ((q.map TaggedWord.word).headD 0) with
      | none => simp
      | some l =>
        simp only [List.length_map, List.length_take]
        omega

/-! ### Bucket-level lemmas for `addCompletion` -/

@[simp]
theorem setRec_same (f : Nat → Nat → PackedRec) (p i : Nat) (r : PackedRec) :
    setRec f p i r p i = r := by
  simp [setRec]

theorem setRec_ne (f : Nat → Nat → PackedRec) (p i : Nat) (r : PackedRec)
    (p' i' : Nat) (h : ¬(p' = p ∧ i' = i)) : setRec f p i r p' i' = f p' i' := by
  simp only [setRec, if_neg h]

/-- The scan stops exactly at the first marked slot. -/
theorem scanGo_eq_mark (slots : Nat → PackedRec) :
    ∀ fuel i j, i ≤ j → j < i + fuel →
      (∀ x, i ≤ x → x < j → (slots x).endOfList = false) →
      (slots j).endOfList = true → scanGo slots i fuel = j := by
  intro fuel
  induction fuel with
  | zero => intro i j h1 h2 _ _; omega
  | succ n ih =>
    intro i j h1 h2 hbelow htop
    rw [scanGo]
    by_cases hij : i = j
    · subst hij
      simp [htop]
    · have hi : (slots i).endOfList = false := hbelow i le_rfl (by omega)
      simp only [hi, Bool.false_eq_true, if_false]
      exact ih (i + 1) j (by omega) (by omega)
        (fun x hx1 hx2 => hbelow x (by omega) hx2) htop

/-- The branch structure of `LossyTrie::addCompletion` once the bucket
pointer is resolved. -/
theorem addCompletion_spec (t : LossyTrie) (fact : List Word)
    (len source sense ty p : Nat)
    (hfind : findA t.ptrs (fingerprint (fact.take len)) = some p) :
    t.addCompletion fact len source sense ty =
      (if t.fullB p then
        { t with hasCompB := fun p' => if p' = p then true else t.hasCompB p' }
      else if (t.recs p 0).source = 0 then
        { t with hasCompB := fun p' => if p' = p then true else t.hasCompB p'
                 recs := setRec t.recs p 0 ⟨source, sense, ty, true⟩ }
      else if scanEol (t.recs p) 0 + 1 < MAX_COMPLETIONS then
        { t with hasCompB := fun p' => if p' = p then true else t.hasCompB p'
                 recs := setRec (setRec t.recs p (scanEol (t.recs p) 0)
                     (clearEol (t.recs p (scanEol (t.recs p) 0)))) p
                   (scanEol (t.recs p) 0 + 1) ⟨source, sense, ty, true⟩ }
      else
        { t with hasCompB := fun p' => if p' = p then true else t.hasCompB p'
                 recs := setRec t.recs p (scanEol (t.recs p) 0)
                     (clearEol (t.recs p (scanEol (t.recs p) 0)))
                 fullB := fun p' => if p' = p then true else t.fullB p' }) := by
  rw [LossyTrie.addCompletion, hfind]

/-- C3: `LossyTrie::addCompletion` preserves the bucket terminator
invariant; a full bucket's records are left untouched (every add to a full
bucket is a record-level no-op); and when the bucket is at capacity
(slot `MAX_COMPLETIONS - 1` occupied) but not yet marked full, the add sets
the `bucketFull` flag, drops the new record, and touches the stored records
only by clearing the `endOfList` bit of the last one. -/
theorem claim_C3 (t : LossyTrie) (fact : List Word) (len source sense ty p : Nat)
    (hfind : findA t.ptrs (fingerprint (fact.take len)) = some p)
    (hsrc : source ≠ 0)
    (hinv : BucketInv t p) :
    BucketInv (t.addCompletion fact len source sense ty) p ∧
    (t.fullB p = true →
      ∀ i, (t.addCompletion fact len source sense ty).recs p i = t.recs p i) ∧
    (t.fullB p = false → (t.recs p (MAX_COMPLETIONS - 1)).source ≠ 0 →
      (t.addCompletion fact len source sense ty).fullB p = true ∧
      (∀ i, i ≠ MAX_COMPLETIONS - 1 →
        (t.addCompletion fact len source sense ty).recs p i = t.recs p i) ∧
      (t.addCompletion fact len source sense ty).recs p (MAX_COMPLETIONS - 1)
        = clearEol (t.recs p (MAX_COMPLETIONS - 1))) := by
  obtain ⟨k, hk, hsrcs, hzero, hflag⟩ := hinv
  rw [addCompletion_spec t fact len source sense ty p hfind]
  by_cases hfull : t.fullB p = true
  · -- the bucket is already marked full: only the hasCompletions bit changes
    rw [if_pos hfull]
    rw [if_pos hfull] at hflag
    refine ⟨⟨k, hk, hsrcs, hzero, ?_⟩, fun _ i => rfl, fun hf _ => by rw [hfull] at hf; cases hf⟩
    rw [if_pos hfull]
    exact hflag
  · have hfalse : t.fullB p = false := by
      cases hv : t.fullB p
      · rfl
      · exact absurd hv hfull
    rw [if_neg hfull]
    rw [if_neg hfull] at hflag
    by_cases hempty : (t.recs p 0).source = 0
    · -- the bucket is empty: the record is stored at slot 0
      have hk0 : k = 0 := by
        by_contra hne
        exact absurd hempty (hsrcs 0 (by omega))
      rw [if_pos hempty]
      refine ⟨⟨1, by rw [MAX_COMPLETIONS]; omega, ?_, ?_, ?_⟩, ?_, ?_⟩
      · intro i hi
        have hi0 : i = 0 := by omega
        subst hi0
        dsimp only
        rw [setRec_same]
        exact hsrc
      · intro i hi
        dsimp only
        rw [setRec_ne _ _ _ _ _ _ (by omega)]
        exact hzero i (by omega)
      · dsimp only
        rw [if_neg hfull]
        refine Or.inr ⟨?_, ?_⟩
        · rw [setRec_same]
        · intro i hi
          omega
      · intro hf
        rw [hfalse] at hf
        cases hf
      · intro _ h24
        refine absurd ?_ h24
        rw [hzero (MAX_COMPLETIONS - 1) (by omega)]
        rfl
    · -- the bucket holds `k ≥ 1` records with the mark on the last one
      have hk1 : 1 ≤ k := by
        by_contra hc
        refine hempty ?_
        rw [hzero 0 (by omega)]
        rfl
      rcases hflag with hflag | ⟨heol, hbelow⟩
      · omega
      · have hscan : scanEol (t.recs p) 0 = k - 1 := by
          rw [scanEol]
          refine scanGo_eq_mark (t.recs p) (MAX_COMPLETIONS - 0) 0 (k - 1)
            (by omega) (by rw [MAX_COMPLETIONS] at *; omega)
            (fun x hx1 hx2 => hbelow x hx2) heol
        rw [if_neg hempty, hscan]
        have hk1' : k - 1 + 1 = k := by omega
        rw [hk1']
        by_cases hlt : k < MAX_COMPLETIONS
        · -- room left: the record is appended at slot `k`
          rw [if_pos hlt]
          refine ⟨⟨k + 1, by omega, ?_, ?_, ?_⟩, ?_, ?_⟩
          · intro i hi
            dsimp only
            by_cases hik : i = k
            · subst hik
              rw [setRec_same]
              exact hsrc
            · rw [setRec_ne _ _ _ _ _ _ (by omega)]
              by_cases hik1 : i = k - 1
              · subst hik1
                rw [setRec_same]
                exact hsrcs (k - 1) (by omega)
              · rw [setRec_ne _ _ _ _ _ _ (by omega)]
                exact hsrcs i (by omega)
          · intro i hi
            dsimp only
            rw [setRec_ne _ _ _ _ _ _ (by omega), setRec_ne _ _ _ _ _ _ (by omega)]
            exact hzero i (by omega)
          · dsimp only
            rw [if_neg hfull]
            refine Or.inr ⟨?_, ?_⟩
            · have hkk : k + 1 - 1 = k := by omega
              rw [hkk, setRec_same]
            · intro i hi
              have hik : i ≠ k := by omega
              rw [setRec_ne _ _ _ _ _ _ (by omega)]
              by_cases hik1 : i = k - 1
              · subst hik1
                rw [setRec_same]
                rfl
              · rw [setRec_ne _ _ _ _ _ _ (by omega)]
                exact hbelow i (by omega)
          · intro hf
            rw [hfalse] at hf
            cases hf
          · intro _ h24
            refine absurd ?_ h24
            rw [hzero (MAX_COMPLETIONS - 1) (by omega)]
            rfl
        · -- at capacity: the flag is set, the record dropped, the mark cleared
          have hk25 : k = MAX_COMPLETIONS := by omega
          rw [if_neg hlt]
          refine ⟨⟨MAX_COMPLETIONS, le_rfl, ?_, ?_, ?_⟩, ?_, ?_⟩
          · intro i hi
            dsimp only
            by_cases hik1 : i = k - 1
            · subst hik1
              rw [setRec_same]
              exact hsrcs (k - 1) (by omega)
            · rw [setRec_ne _ _ _ _ _ _ (by omega)]
              exact hsrcs i (by omega)
          · intro i hi
            dsimp only
            rw [setRec_ne _ _ _ _ _ _ (by omega)]
            exact hzero i (by omega)
          · dsimp only
            have hfullnew : (if p = p then true else t.fullB p) = true := by
              rw [if_pos rfl]
            rw [if_pos hfullnew]
            refine ⟨rfl, ?_⟩
            intro i hi
            by_cases hik1 : i = k - 1
            · subst hik1
              rw [setRec_same]
              rfl
            · rw [setRec_ne _ _ _ _ _ _ (by omega)]
              exact hbelow i (by omega)
          · intro hf
            rw [hfalse] at hf
            cases hf
          · intro _ _
            refine ⟨by dsimp only; rw [if_pos rfl], ?_, ?_⟩
            · intro i hi
              dsimp only
              rw [setRec_ne _ _ _ _ _ _ (by omega)]
            · dsimp only
              have hkk : k - 1 = MAX_COMPLETIONS - 1 := by omega
              rw [← hkk, setRec_same, hkk]

theorem claim_C3_witness :
    findA (LossyTrie.init [(fingerprint [], 1)]).ptrs
        (fingerprint (([] : List Word).take 0)) = some 2 ∧
    (7 : Nat) ≠ 0 ∧
    BucketInv (LossyTrie.init [(fingerprint [], 1)]) 2 ∧
    (BucketInv ((LossyTrie.init [(fingerprint [], 1)]).addCompletion [] 0 7 1 3) 2 ∧
      ((LossyTrie.init [(fingerprint [], 1)]).fullB 2 = true →
        ∀ i, (((LossyTrie.init [(fingerprint [], 1)]).addCompletion [] 0 7 1 3).recs 2 i)
          = (LossyTrie.init [(fingerprint [], 1)]).recs 2 i) ∧
      ((LossyTrie.init [(fingerprint [], 1)]).fullB 2 = false →
        ((LossyTrie.init [(fingerprint [], 1)]).recs 2 (MAX_COMPLETIONS - 1)).source ≠ 0 →
        (((LossyTrie.init [(fingerprint [], 1)]).addCompletion [] 0 7 1 3).fullB 2 = true ∧
        (∀ i, i ≠ MAX_COMPLETIONS - 1 →
          (((LossyTrie.init [(fingerprint [], 1)]).addCompletion [] 0 7 1 3).recs 2 i)
            = (LossyTrie.init [(fingerprint [], 1)]).recs 2 i) ∧
        (((LossyTrie.init [(fingerprint [], 1)]).addCompletion [] 0 7 1 3).recs 2
            (MAX_COMPLETIONS - 1))
          = clearEol ((LossyTrie.init [(fingerprint [], 1)]).recs 2
              (MAX_COMPLETIONS - 1))))) :=
  ⟨by decide, by decide,
    ⟨0, by decide, fun i hi => absurd hi (by omega), fun i _ => rfl, by simp [LossyTrie.init]⟩,
    claim_C3 (LossyTrie.init [(fingerprint [], 1)]) [] 0 7 1 3 2 (by decide) (by decide)
      ⟨0, by decide, fun i hi => absurd hi (by omega), fun i _ => rfl, by simp [LossyTrie.init]⟩⟩

/-! ### Claim theorems -/

/-- C1: after an index is built from a fact stream, every added fact `F` is
contained: `contains(F, |F|, -1, _)` returns `true` on the lossless trie
(for every non-empty added edge sequence) and on the lossy packed index;
false negatives are impossible. -/
theorem claim_C1 (edgeStream : List (List Edge)) (g : Edge → Bool) (es : List Edge)
    (w2s : SenseTable) (stream : List (List Word)) (F : List Word)
    (h1 : es ∈ edgeStream) (h2 : es ≠ []) (h3 : F ∈ stream) :
    ((buildRoot edgeStream g).containsQ (tag (wordsOf es)) (-1)).1 = true ∧
    ((lossyBuild w2s stream).contains (tag F) (-1)).1 = true := by
  constructor
  · rw [containsQ_fst, tag_words, buildRoot]
    exact foldAdd_mem _ _ _ _ h1 h2
  · rw [lossyContains_fst, tag_words]
    have hkey := hasKey_completionCountsAll w2s stream F h3
    rw [hasKey] at hkey
    have hsome : (findA (lossyBuild w2s stream).ptrs (fingerprint F)).isSome = true := by
      rw [lossyBuild_ptrs, hasKey_mapValuesCursor]
      exact hkey
    cases hfind : findA (lossyBuild w2s stream).ptrs (fingerprint F) with
    | none => rw [hfind] at hsome; simp at hsome
    | some p =>
      simp only
      exact ((lossyBuild_isFactSpec w2s stream) _ _ hfind).mpr ⟨F, h3, rfl⟩

theorem claim_C1_witness :
    [(⟨10, 0, 0, 0, 0, 1⟩ : Edge), ⟨20, 0, 0, 0, 0, 1⟩] ∈
        [[(⟨10, 0, 0, 0, 0, 1⟩ : Edge), ⟨20, 0, 0, 0, 0, 1⟩]] ∧
    ([(⟨10, 0, 0, 0, 0, 1⟩ : Edge), ⟨20, 0, 0, 0, 0, 1⟩] ≠ []) ∧
    [10, 20] ∈ [[10, 20]] ∧
    (((buildRoot [[(⟨10, 0, 0, 0, 0, 1⟩ : Edge), ⟨20, 0, 0, 0, 0, 1⟩]] (fun _ => true)).containsQ
        (tag (wordsOf [(⟨10, 0, 0, 0, 0, 1⟩ : Edge), ⟨20, 0, 0, 0, 0, 1⟩])) (-1)).1 = true ∧
      ((lossyBuild [] [[10, 20]]).contains (tag ([10, 20] : List Word)) (-1)).1 = true) :=
  ⟨by decide, by decide, by decide,
    claim_C1 [[⟨10, 0, 0, 0, 0, 1⟩, ⟨20, 0, 0, 0, 0, 1⟩]] (fun _ => true)
      [⟨10, 0, 0, 0, 0, 1⟩, ⟨20, 0, 0, 0, 0, 1⟩] [] [[10, 20]] [10, 20]
      (by decide) (by decide) (by decide)⟩

/-- C5: a fact never added is not contained in the lossless trie, for any
mutation index; the lossy index reports `true` for a query only when the
query's double-FNV fingerprint (main and aux hash simultaneously) equals
the fingerprint of some added fact. -/
theorem claim_C5 (edgeStream : List (List Edge)) (g : Edge → Bool) (ws : List Word)
    (mi : Int) (w2s : SenseTable) (stream : List (List Word)) (q : List TaggedWord)
    (mi' : Int)
    (h1 : ∀ es ∈ edgeStream, wordsOf es ≠ ws)
    (h2 : ((lossyBuild w2s stream).contains q mi').1 = true) :
    ((buildRoot edgeStream g).containsQ (tag ws) mi).1 = false ∧
    ∃ H ∈ stream, fingerprint H = fingerprint (q.map TaggedWord.word) := by
  constructor
  · rw [containsQ_fst, tag_words, buildRoot]
    cases hval : (List.foldl (fun r es => r.add es g) emptyRoot edgeStream).trie.memB ws with
    | false => rfl
    | true =>
      rcases foldAdd_elim _ _ _ _ hval with ⟨es, hmem, hws⟩ | hempty
      · exact absurd hws (h1 es hmem)
      · rw [show emptyRoot.trie = emptyTrie from rfl] at hempty
        simp at hempty
  · rw [lossyContains_fst] at h2
    cases hfind : findA (lossyBuild w2s stream).ptrs
        (fingerprint (q.map TaggedWord.word)) with
    | none => rw [hfind] at h2; simp at h2
    | some p =>
      rw [hfind] at h2
      exact ((lossyBuild_isFactSpec w2s stream) _ _ hfind).mp h2

theorem claim_C5_witness :
    (∀ es ∈ [[(⟨10, 0, 0, 0, 0, 1⟩ : Edge), ⟨20, 0, 0, 0, 0, 1⟩]], wordsOf es ≠ [10]) ∧
    ((lossyBuild [] [[10, 20]]).contains (tag ([10, 20] : List Word)) (-1)).1 = true ∧
    (((buildRoot [[(⟨10, 0, 0, 0, 0, 1⟩ : Edge), ⟨20, 0, 0, 0, 0, 1⟩]] (fun _ => true)).containsQ
        (tag ([10] : List Word)) (-1)).1 = false ∧
      ∃ H ∈ [[10, 20]], fingerprint H
        = fingerprint ((tag ([10, 20] : List Word)).map TaggedWord.word)) :=
  ⟨by decide, by decide,
    claim_C5 [[⟨10, 0, 0, 0, 0, 1⟩, ⟨20, 0, 0, 0, 0, 1⟩]] (fun _ => true) [10] (-1)
      [] [[10, 20]] (tag [10, 20]) (-1) (by decide) (by decide)⟩

/-- C8: pass 1 of the lossy build processes a fact of length `L` exactly as
the spec words it — for each proper prefix length `ℓ ∈ [1, L)` it
increments the count at the prefix fingerprint by the number of sense
variants of `fact[ℓ]`, saturating at `MAX_COMPLETIONS`, and additionally
increments by 0 at the full-fact fingerprint — and the latter reserves a
bucket (the key is present afterwards). -/
theorem claim_C8 (w2s : SenseTable) (m : HashIntMap) (fact : List Word) :
    completionCountsFact w2s m fact = pass1Spec w2s m fact ∧
    hasKey (completionCountsFact w2s m fact) (fingerprint fact) = true := by
  constructor
  · rw [completionCountsFact, pass1Spec, pass1Go_eq_fold]
  · exact hasKey_completionCountsFact_self w2s m fact

/-- C9 counterexample: adding the fact `[10, 20]` a second time changes the
completion records of the query `[20]` with mutation index `-1` on the
lossless trie (the skip-gram list gains a duplicate first word, so the
child `10` is enumerated twice). -/
theorem claim_C9_counterexample :
    ¬ ((((emptyRoot.add [⟨10, 0, 0, 0, 0, 1⟩, ⟨20, 0, 0, 0, 0, 1⟩] (fun _ => true)).add
          [⟨10, 0, 0, 0, 0, 1⟩, ⟨20, 0, 0, 0, 0, 1⟩] (fun _ => true)).containsQ
            (tag [20]) (-1)).2.1
      = ((emptyRoot.add [⟨10, 0, 0, 0, 0, 1⟩, ⟨20, 0, 0, 0, 0, 1⟩]
          (fun _ => true)).containsQ (tag [20]) (-1)).2.1) := by
  decide

/-- C9 (amended): adding the same fact a second time changes no containment
boolean: on the lossless trie the trie structure is unchanged (so every
`contains` boolean is unchanged), and on the lossy index the `isFact` bits
are unchanged (so every `contains` boolean is unchanged); the completion
record lists may differ (see the counterexample). -/
theorem claim_C9_amended (r : TrieRoot) (es : List Edge) (g : Edge → Bool)
    (q : List TaggedWord) (mi : Int) (w2s : SenseTable) (t : LossyTrie)
    (F : List Word) (q' : List TaggedWord) (mi' : Int) :
    (((r.add es g).add es g).containsQ q mi).1 = ((r.add es g).containsQ q mi).1 ∧
    ((addFactsFact w2s (addFactsFact w2s t F) F).contains q' mi').1
      = ((addFactsFact w2s t F).contains q' mi').1 := by
  constructor
  · rw [containsQ_fst, containsQ_fst]
    simp only [TrieRoot.add_trie]
    rw [add_idem]
  · rw [lossyContains_fst, lossyContains_fst]
    rw [addFactsFact_ptrs w2s (addFactsFact w2s t F) F]
    cases hfind : findA (addFactsFact w2s t F).ptrs
        (fingerprint (q'.map TaggedWord.word)) with
    | none => rfl
    | some p =>
      simp only
      have hd := congrFun (addFactsFact_isFactB w2s (addFactsFact w2s t F) F) p
      have hs := congrFun (addFactsFact_isFactB w2s t F) p
      rw [hd, addFactsFact_ptrs w2s t F]
      cases hF : findA t.ptrs (fingerprint F) with
      | none => simp only
      | some pF =>
        simp only
        by_cases hp : p = pF
        · rw [hs, hF]
          simp [hp]
        · rw [if_neg hp, hs, hF]

/-- C10: the assertion `queryLength > mutationIndex` of `Trie::contains`
holds at every recursive call: the inner calls pass `queryLength - 1` with
`mutationIndex - 1` (or the sentinel `-9000`), so a top-level call
satisfying it never fires the assertion anywhere. -/
theorem claim_C10 (r : TrieRoot) (q : List TaggedWord) (mi : Int)
    (h : (q.length : Int) > mi) : r.assertOk q mi = true := by
  have inner : ∀ (q : List TaggedWord) (t : Trie) (mi : Int),
      (q.length : Int) > mi → t.assertOk q mi = true := by
    intro q
    induction q with
    | nil =>
      intro t mi hm
      rw [Trie.assertOk]
      simpa using hm
    | cons w rest ih =>
      intro t mi hm
      rw [Trie.assertOk]
      simp only [Bool.and_eq_true, decide_eq_true_eq]
      refine ⟨hm, ?_⟩
      cases hfind : findA t.children w.word with
      | none => rfl
      | some c =>
        refine ih c (mi - 1) ?_
        simp only [List.length_cons] at hm
        push_cast at hm ⊢
        omega
  rw [TrieRoot.assertOk]
  simp only [Bool.and_eq_true, decide_eq_true_eq]
  refine ⟨h, ?_⟩
  by_cases hm : mi = -1
  · rw [if_pos hm]
    refine inner _ _ _ ?_
    have : (0 : Int) ≤ q.length := by positivity
    omega
  · rw [if_neg hm]
    exact inner _ _ _ h

theorem claim_C10_witness :
    ((tag [5]).length : Int) > 0 ∧ TrieRoot.assertOk emptyRoot (tag [5]) 0 = true :=
  ⟨by decide, claim_C10 emptyRoot (tag [5]) 0 (by decide)⟩

/-- C6 (the code bug evaluated): on the counts map produced by pass 1 over
the single fact `[10]` — one live bucket with count 0 — the constructor
allocates `sum*4 + sum + 1 = 1` byte, yet the pointer-assignment pass ends
with cursor 2: the bucket's flag byte (offset 1) lies outside the
allocation, contradicting the claim that the cursor never exceeds the
allocated size. -/
theorem claim_C6_bug :
    finalCursor (completionCountsAll [] [[10]]) = 2 ∧
    allocSize (completionCountsAll [] [[10]]) = 1 ∧
    allocSize (completionCountsAll [] [[10]])
      < finalCursor (completionCountsAll [] [[10]]) := by
  decide

/-- C2 counterexample: build over thirteen copies of the fact `[10, 20]`
with word 20 carrying two sense variants.  The bucket of prefix `[10]`
saturates (26 `addCompletion` calls against a cap of 25, the overflow
clearing the `endOfList` mark), and the query `([10, 20], mutationIndex 0)`
then copies `MAX_COMPLETIONS + 1 = 26` records into the caller's buffer and
stores no terminator — refuting the claimed `MAX_COMPLETIONS` bound for
saturated buckets. -/
theorem claim_C2_counterexample :
    ((lossyBuild [(20, [⟨20, 0, 0, 0, 0, 1⟩, ⟨20, 1, 0, 0, 3, 1⟩])]
        (List.replicate 13 [10, 20])).contains (tag [10, 20]) 0).2.1.length
      = MAX_COMPLETIONS + 1 ∧
    ((lossyBuild [(20, [⟨20, 0, 0, 0, 0, 1⟩, ⟨20, 1, 0, 0, 3, 1⟩])]
        (List.replicate 13 [10, 20])).contains (tag [10, 20]) 0).2.2 = false := by
  decide

/-- C2 (amended): the number of completion records a query stores is at
most `MAX_COMPLETIONS` on the lossless trie and at most
`MAX_COMPLETIONS + 1` on the lossy index; moreover a lossy bucket that
still carries an `endOfList` mark below the cap (i.e. was never saturated)
is read with at most `MAX_COMPLETIONS` copies. -/
theorem claim_C2_amended (r : TrieRoot) (q : List TaggedWord) (mi : Int)
    (t : LossyTrie) (q' : List TaggedWord) (mi' : Int)
    (slots : Nat → PackedRec) (j : Nat) (hj : j < MAX_COMPLETIONS)
    (he : (slots j).endOfList = true) :
    (r.containsQ q mi).2.1.length ≤ MAX_COMPLETIONS ∧
    (t.contains q' mi').2.1.length ≤ MAX_COMPLETIONS + 1 ∧
    scanEol slots 0 + 1 ≤ MAX_COMPLETIONS := by
  refine ⟨containsQ_length r q mi, lossyContains_length t q' mi', ?_⟩
  have hm := scanGo_le_mark slots (MAX_COMPLETIONS - 0) 0 j (by omega) (by omega) he
  rw [scanEol]
  omega

theorem claim_C2_amended_witness :
    (0 < MAX_COMPLETIONS ∧
      ((fun _ : Nat => (⟨1, 0, 0, true⟩ : PackedRec)) 0).endOfList = true) ∧
    ((emptyRoot.containsQ (tag [7]) 0).2.1.length ≤ MAX_COMPLETIONS ∧
      ((lossyBuild [] []).contains (tag [7]) 0).2.1.length ≤ MAX_COMPLETIONS + 1 ∧
      scanEol (fun _ : Nat => (⟨1, 0, 0, true⟩ : PackedRec)) 0 + 1 ≤ MAX_COMPLETIONS) :=
  ⟨⟨by decide, by decide⟩,
    claim_C2_amended emptyRoot (tag [7]) 0 (lossyBuild [] []) (tag [7]) 0
      (fun _ => ⟨1, 0, 0, true⟩) 0 (by decide) (by decide)⟩

/-- C7: with `mutationIndex = -1` the root follows the override protocol —
the completion records are exactly those of the spec-worded root emission
(skip-gram lookup keyed by the first query word, fallback to all root
children on a miss, leaf children only for an empty query), the
containment boolean is the plain trie membership of the query's word path,
and the inner traversal (run with the sentinel `-9000`) re-emits nothing. -/
theorem claim_C7 (r : TrieRoot) (q : List TaggedWord) :
    r.containsQ q (-1)
      = (r.trie.memB (q.map TaggedWord.word), rootEmitSpec r q,
          decide ((rootEmitSpec r q).length < MAX_COMPLETIONS)) := by
  cases q with
  | nil =>
    have hno := containsGo_noEmit [] r.trie (-9000)
      (emitLeafChildren r.trie.children 0).length (by omega)
    have hf := containsGo_fst [] r.trie (-9000)
      (emitLeafChildren r.trie.children 0).length
    simp [TrieRoot.containsQ, rootEmitSpec, hno, hf]
  | cons w rest =>
    cases hsg : findA r.skipGrams w.word with
    | some firsts =>
      have hno := containsGo_noEmit (w :: rest) r.trie (-9000)
        (emitSkip firsts r.trie.children 0).length (by omega)
      have hf := containsGo_fst (w :: rest) r.trie (-9000)
        (emitSkip firsts r.trie.children 0).length
      simp [TrieRoot.containsQ, rootEmitSpec, hsg, hno, hf]
    | none =>
      have hno := containsGo_noEmit (w :: rest) r.trie (-9000)
        (emitChildren r.trie.children 0).length (by omega)
      have hf := containsGo_fst (w :: rest) r.trie (-9000)
        (emitChildren r.trie.children 0).length
      simp [TrieRoot.containsQ, rootEmitSpec, hsg, hno, hf]

/-- C4 counterexample: on the empty lossy index the query `([7],
mutationIndex -1)` stores nothing into the caller's buffer — neither
records nor the `source = 0` terminator — refuting "in every case the
function writes a source=0 terminator"; and on an index holding `[10, 20]`
(word 20 with two senses) the absent query `([10, 30], mutationIndex 0)`
returns `contains = false` yet a non-empty completion list — refuting
"absent entries return an empty completion list". -/
theorem claim_C4_counterexample :
    ((lossyBuild [] []).contains (tag [7]) (-1)) = (false, [], false) ∧
    (((lossyBuild [(20, [⟨20, 0, 0, 0, 0, 1⟩, ⟨20, 1, 0, 0, 3, 1⟩])]
        [[10, 20]]).contains (tag [10, 30]) 0).1 = false ∧
      ((lossyBuild [(20, [⟨20, 0, 0, 0, 0, 1⟩, ⟨20, 1, 0, 0, 3, 1⟩])]
        [[10, 20]]).contains (tag [10, 30]) 0).2.1 ≠ []) := by
  decide

/-- C4 (amended): every query returns normally; an absent full-fact
fingerprint gives `contains = false` (the completion list is computed
independently); the lossless variant stores its terminator exactly when
fewer than `MAX_COMPLETIONS` records were stored; the lossy variant stores
its terminator only with fewer than `MAX_COMPLETIONS` records, and when it
stores none, either nothing at all was stored (missing bucket or missing
begin-insertion list) or the buffer reached the cap. -/
theorem claim_C4_amended (t : LossyTrie) (q : List TaggedWord) (mi : Int)
    (r : TrieRoot) (q2 : List TaggedWord) (mi2 : Int)
    (habs : findA t.ptrs (fingerprint (q.map TaggedWord.word)) = none) :
    (t.contains q mi).1 = false ∧
    (r.containsQ q2 mi2).2.2
      = decide ((r.containsQ q2 mi2).2.1.length < MAX_COMPLETIONS) ∧
    ((t.contains q mi).2.2 = true → (t.contains q mi).2.1.length < MAX_COMPLETIONS) ∧
    ((t.contains q mi).2.2 = false →
      (t.contains q mi).2.1 = [] ∨ MAX_COMPLETIONS ≤ (t.contains q mi).2.1.length) := by
  refine ⟨?_, ?_, ?_, ?_⟩
  · rw [lossyContains_fst, habs]
  · simp only [TrieRoot.containsQ]
    split <;> rfl
  · rw [LossyTrie.contains]
    split
    · cases findA t.ptrs (fingerprint ((q.map TaggedWord.word).take (mi.toNat + 1))) with
      | none => intro h; cases h
      | some p =>
        simp only
        split
        · intro h
          simp only [decide_eq_true_eq] at h
          simpa using h
        · intro _
          simp [MAX_COMPLETIONS]
    · split
      · intro _
        simp [MAX_COMPLETIONS]
      · cases findA t.begIns ((q.map TaggedWord.word).headD 0) with
        | none => intro h; cases h
        | some l =>
          simp only
          intro h
          simp only [decide_eq_true_eq] at h
          simp only [List.length_map, List.length_take]
          omega
  · rw [LossyTrie.contains]
    split
    · cases findA t.ptrs (fingerprint ((q.map TaggedWord.word).take (mi.toNat + 1))) with
      | none => intro _; exact Or.inl rfl
      | some p =>
        simp only
        split
        · intro h
          simp only [decide_eq_false_iff_not, not_lt] at h
          refine Or.inr ?_
          simpa using h
        · intro h; cases h
    · split
      · intro h; cases h
      · cases findA t.begIns ((q.map TaggedWord.word).headD 0) with
        | none => intro _; exact Or.inl rfl
        | some l =>
          simp only
          intro h
          simp only [decide_eq_false_iff_not, not_lt] at h
          refine Or.inr ?_
          simp only [List.length_map, List.length_take]
          omega

theorem claim_C4_amended_witness :
    findA (lossyBuild [] []).ptrs
        (fingerprint ((tag ([7] : List Word)).map TaggedWord.word)) = none ∧
    (((lossyBuild [] []).contains (tag ([7] : List Word)) (-1)).1 = false ∧
      (emptyRoot.containsQ (tag ([7] : List Word)) 0).2.2
        = decide ((emptyRoot.containsQ (tag ([7] : List Word)) 0).2.1.length
            < MAX_COMPLETIONS) ∧
      (((lossyBuild [] []).contains (tag ([7] : List Word)) (-1)).2.2 = true →
        ((lossyBuild [] []).contains (tag ([7] : List Word)) (-1)).2.1.length
          < MAX_COMPLETIONS) ∧
      (((lossyBuild [] []).contains (tag ([7] : List Word)) (-1)).2.2 = false →
        ((lossyBuild [] []).contains (tag ([7] : List Word)) (-1)).2.1 = [] ∨
        MAX_COMPLETIONS
          ≤ ((lossyBuild [] []).contains (tag ([7] : List Word)) (-1)).2.1.length)) :=
  ⟨by decide,
    claim_C4_amended (lossyBuild [] []) (tag [7]) (-1) emptyRoot (tag [7]) 0 (by decide)⟩

/-- The exact final cursor of the pointer-assignment pass: one null-guard
byte, plus per live bucket one flag byte plus `count * sizeof(packed_insertion)`
record bytes.  It exceeds the allocated
`sum * sizeof(packed_insertion) + sum + 1` exactly when the number of live
buckets exceeds the sum of the counts (flag-only buckets are unpaid-for). -/
theorem finalCursor_formula (counts : HashIntMap) :
    finalCursor counts = 1 + sizeofPI * counts.sumVals + counts.length := by
  rw [finalCursor]
  suffices hgen : ∀ (m : HashIntMap) (cur : Nat),
      (mapValuesCursor m cur).2 = cur + sizeofPI * m.sumVals + m.length by
    rw [hgen]
  intro m
  induction m with
  | nil => intro cur; simp [mapValuesCursor, HashIntMap.sumVals]
  | cons hd t ih =>
    intro cur
    obtain ⟨k, v⟩ := hd
    simp only [mapValuesCursor, ih, HashIntMap.sumVals, List.map_cons, List.sum_cons,
      List.length_cons]
    ring

end FactIndex
